import Mathlib

/-!
# Verification of the lazyssh multi-source server-registry engine

This file gives a shallow embedding, in Lean 4, of the persistence and
reconciliation core of the `lazyssh` repository (Go), and settles a list of
claims about it.  Strings are modelled as `List Char` (named `GoStr`), file
contents as strings, file systems as association lists from path to content,
and the relevant Go standard-library helpers (`strings.Fields`,
`strings.TrimSpace`, `bufio.ScanLines`, `strconv.Atoi`, ...) are modelled
explicitly below.  Every definition is translated from the repository's
source; environment-provided data (the user's home directory, glob results,
the wall clock) appear as explicit parameters.
-/

set_option maxHeartbeats 1000000

namespace LazySSH

/-- Strings, modelled as explicit character lists so that the parsing and
serialization functions can be reasoned about by list induction. -/
abbrev GoStr := List Char

/-- Model of Go's `unicode.IsSpace` (White_Space property). -/
def goIsSpace (c : Char) : Bool :=
  c = ' ' || c = '\t' || c = '\n' || c.val = 0x0B || c.val = 0x0C || c = '\r' ||
  c.val = 0x85 || c.val = 0xA0 || c.val = 0x1680 ||
  (0x2000 ≤ c.val && c.val ≤ 0x200A) || c.val = 0x2028 || c.val = 0x2029 ||
  c.val = 0x202F || c.val = 0x205F || c.val = 0x3000

/-- One character of field-splitting: finished words so far plus the word
being accumulated; a whitespace character flushes a non-empty word. -/
def fieldStep (st : List GoStr × GoStr) (c : Char) : List GoStr × GoStr :=
  if goIsSpace c then (st.1 ++ (if st.2 = [] then [] else [st.2]), [])
  else (st.1, st.2 ++ [c])

/-- Flush the word in progress at the end of the input. -/
def fieldFinish (st : List GoStr × GoStr) : List GoStr :=
  st.1 ++ (if st.2 = [] then [] else [st.2])

/-- Model of Go's `strings.Fields`: the maximal runs of non-space characters. -/
def goFields (l : GoStr) : List GoStr :=
  fieldFinish (l.foldl fieldStep ([], []))

/-- Words joined by single spaces: the model of
`strings.Join(parts, " ")`. -/
def joinWords : List GoStr → GoStr
  | [] => []
  | [w] => w
  | w :: ws => w ++ ' ' :: joinWords ws

/-- Model of Go's `strings.TrimSpace`. -/
def goTrimSpace (l : GoStr) : GoStr :=
  ((l.dropWhile goIsSpace).reverse.dropWhile goIsSpace).reverse

/-- Model of Go's `strings.HasPrefix` / `List.isPrefixOf`. -/
def goHasPref (pre l : GoStr) : Bool := pre.isPrefixOf l

/-- Model of Go's `strings.HasSuffix`. -/
def goHasSuff (suf l : GoStr) : Bool := suf.reverse.isPrefixOf l.reverse

/-- Model of Go's `strings.ToLower`, restricted to ASCII letters (the
directive keywords of the SSH config format are ASCII). -/
def goToLower (l : GoStr) : GoStr :=
  l.map fun c => if 'A' ≤ c ∧ c ≤ 'Z' then Char.ofNat (c.toNat + 32) else c

/-- Model of Go's `strings.Contains` (substring test). -/
def goContains : GoStr → GoStr → Bool
  | _, [] => true
  | [], _ :: _ => false
  | c :: cs, sub => goHasPref sub (c :: cs) || goContains cs sub

/-- Fuel-indexed digit expansion; the fuel (any bound on the number
itself) only serves structural recursion. -/
def natDigitsAux : Nat → Nat → GoStr
  | 0, n => [Char.ofNat (48 + n % 10)]
  | fuel + 1, n =>
    if n < 10 then [Char.ofNat (48 + n)]
    else natDigitsAux fuel (n / 10) ++ [Char.ofNat (48 + n % 10)]

/-- Decimal digits of a natural number, most significant first; the model of
the digit part of Go's `%d` formatting. -/
def natDigits (n : Nat) : GoStr := natDigitsAux n n

theorem natDigitsAux_irrel : ∀ (f g n : Nat), n ≤ f → n ≤ g →
    natDigitsAux f n = natDigitsAux g n := by
  intro f
  induction f with
  | zero =>
    intro g n hf hg
    interval_cases n
    cases g with
    | zero => rfl
    | succ g' => simp [natDigitsAux]
  | succ f' ih =>
    intro g n hf hg
    cases g with
    | zero =>
      interval_cases n
      simp [natDigitsAux]
    | succ g' =>
      simp only [natDigitsAux]
      by_cases hn : n < 10
      · rw [if_pos hn, if_pos hn]
      · rw [if_neg hn, if_neg hn]
        have hdiv : n / 10 < n := Nat.div_lt_self (by omega) (by omega)
        rw [ih g' (n / 10) (by omega) (by omega)]

/-- Model of Go's `fmt.Sprintf("%d", i)` for a (signed) integer. -/
def goIntToStr (i : Int) : GoStr :=
  if i < 0 then '-' :: natDigits i.natAbs else natDigits i.natAbs

/-- Value of a decimal digit character, if it is one. -/
def digitVal (c : Char) : Option Nat :=
  if '0' ≤ c ∧ c ≤ '9' then some (c.toNat - 48) else none

/-- Parse an all-digit string into a natural number (most significant digit
first); `none` unless the string is non-empty and all digits. -/
def digitsToNat : GoStr → Option Nat
  | [] => none
  | l => go l 0
where
  go : GoStr → Nat → Option Nat
    | [], acc => some acc
    | c :: cs, acc =>
      match digitVal c with
      | none => none
      | some d => go cs (acc * 10 + d)

/-- Model of Go's `strconv.Atoi` on a 64-bit platform: optional sign, at
least one digit, no other characters, and the value must fit in `int64`. -/
def goAtoi (l : GoStr) : Option Int :=
  if goHasPref "+".data l then
    (digitsToNat (l.drop 1)).bind fun n =>
      if (n : Int) ≤ 2 ^ 63 - 1 then some (n : Int) else none
  else if goHasPref "-".data l then
    (digitsToNat (l.drop 1)).bind fun n =>
      if (n : Int) ≤ 2 ^ 63 then some (-(n : Int)) else none
  else
    (digitsToNat l).bind fun n =>
      if (n : Int) ≤ 2 ^ 63 - 1 then some (n : Int) else none

/-- Strip one trailing carriage return, as `bufio.ScanLines` does. -/
def dropCR (l : GoStr) : GoStr :=
  if goHasSuff ['\r'] l then l.dropLast else l

/-- One character of line-splitting: finished lines so far plus the line
being accumulated. -/
def scanStep (st : List GoStr × GoStr) (c : Char) : List GoStr × GoStr :=
  if c = '\n' then (st.1 ++ [dropCR st.2], []) else (st.1, st.2 ++ [c])

/-- Model of reading a file line by line with `bufio.Scanner` and
`bufio.ScanLines`: lines split at `'\n'`, each stripped of one trailing
`'\r'`; a final unterminated line is returned as well, and a trailing
newline does not produce an extra empty line. -/
def goScanLines (l : GoStr) : List GoStr :=
  let st := l.foldl scanStep ([], [])
  if st.2 = [] then st.1 else st.1 ++ [dropCR st.2]

/-! ## Times and the data model (`internal/core/domain/server.go`) -/

/-- Model of Go's `time.Time` restricted to what the engine stores: a UTC
civil timestamp with second precision (the engine formats and parses
timestamps with the RFC 3339 layout).  The zero value is Go's zero time,
January 1 of year 1, 00:00:00 UTC. -/
structure GoTime where
  year : Nat := 1
  month : Nat := 1
  day : Nat := 1
  hour : Nat := 0
  minute : Nat := 0
  second : Nat := 0
deriving DecidableEq, Repr

/-- Model of `time.Time.IsZero`. -/
def GoTime.isZero (t : GoTime) : Bool := t = ({} : GoTime)

/-- Left-pad the decimal digits of `n` with `'0'` to width `w`. -/
def padNat (w n : Nat) : GoStr :=
  let d := natDigits n
  List.replicate (w - d.length) '0' ++ d

/-- Model of `t.Format(time.RFC3339)` for a UTC time:
`YYYY-MM-DDTHH:MM:SSZ`. -/
def GoTime.formatRFC3339 (t : GoTime) : GoStr :=
  padNat 4 t.year ++ '-' :: padNat 2 t.month ++ '-' :: padNat 2 t.day ++
  'T' :: padNat 2 t.hour ++ ':' :: padNat 2 t.minute ++ ':' :: padNat 2 t.second ++ ['Z']

/-- Parse a fixed-width decimal field. -/
def parseNatField (l : GoStr) : Option Nat := digitsToNat l

/-- Model of `time.Parse(time.RFC3339, s)` restricted to the `Z`-offset
form the engine itself writes; any other shape is a parse error
(`none`). -/
def goParseRFC3339 (l : GoStr) : Option GoTime :=
  match l with
  | [y1, y2, y3, y4, '-', m1, m2, '-', d1, d2, 'T',
     h1, h2, ':', mi1, mi2, ':', s1, s2, 'Z'] =>
    (parseNatField [y1, y2, y3, y4]).bind fun y =>
    (parseNatField [m1, m2]).bind fun mo =>
    (parseNatField [d1, d2]).bind fun d =>
    (parseNatField [h1, h2]).bind fun h =>
    (parseNatField [mi1, mi2]).bind fun mi =>
    (parseNatField [s1, s2]).bind fun s =>
    if 1 ≤ mo ∧ mo ≤ 12 ∧ 1 ≤ d ∧ d ≤ 31 ∧ h ≤ 23 ∧ mi ≤ 59 ∧ s ≤ 59 then
      some { year := y, month := mo, day := d, hour := h, minute := mi, second := s }
    else none
  | _ => none

/-- Model of `domain.Server` (`internal/core/domain/server.go`).  The struct
in `server.go` carries `Alias .. SSMCommand`; the `group`, `identityFiles`
and `aliases` fields appear in the variants of the struct used by the
grouped-config parser (`SSHConfigParser`) and by the `ssh_config_file`
repository, and are carried here with the same zero values. -/
structure Server where
  aliasName : GoStr := []
  host : GoStr := []
  user : GoStr := []
  port : Int := 0
  key : GoStr := []
  tags : List GoStr := []
  lastSeen : GoTime := {}
  pinnedAt : GoTime := {}
  sshCount : Int := 0
  connectionType : GoStr := []
  source : GoStr := []
  group : GoStr := []
  identityFiles : List GoStr := []
  aliases : List GoStr := []
  awsProfile : GoStr := []
  awsRegion : GoStr := []
  ec2TagFilter : GoStr := []
  ssmDocument : GoStr := []
  ssmCommand : GoStr := []
deriving DecidableEq, Repr

/-- `domain.ConnectionTypeSSH`. -/
def connectionTypeSSH : GoStr := "ssh".data

/-- `domain.ConnectionTypeAWS`. -/
def connectionTypeAWS : GoStr := "aws".data

/-- `DefaultPort` (`server_file_repo.go`). -/
def DefaultPort : Int := 22

/-- `ManagedByComment` (`server_file_repo.go`). -/
def ManagedByComment : GoStr := "# Managed by lazyssh".data

/-! ## The flat parser and writer of `server_file_repo.go`

`parseSSHConfig` (lines 194-268) reads the single primary config file;
`writeSSHConfig` (lines 270-312) rewrites it.  The user's home directory
(the result of `os.UserHomeDir`) is an explicit parameter `home`:
`none` models the call failing. -/

/-- `filepath.Join(home, p)` as used for `~` expansion.  (Go's
`filepath.Join` additionally runs `path.Clean` on the result; the cleaning
is the identity on the already-clean paths involved here and is not
modelled.) -/
def goJoinPath (home p : GoStr) : GoStr :=
  if home = [] then p else home ++ '/' :: p

/-- The `identityfile` branch of `parseSSHConfig`: expand a leading `~/` to
the home directory when `os.UserHomeDir` succeeds. -/
def expandTilde (home : Option GoStr) (v : GoStr) : GoStr :=
  if goHasPref "~/".data v then
    match home with
    | some h => goJoinPath h (v.drop 2)
    | none => v
  else v

/-- Parser state: finished records plus the record being accumulated. -/
structure SfrState where
  servers : List Server := []
  current : Option Server := none
deriving DecidableEq, Repr

/-- Flushing the in-progress record (`if currentServer != nil { servers =
append(servers, *currentServer) }`). -/
def optList : Option Server → List Server
  | none => []
  | some c => [c]

/-- The `switch key` statement of `parseSSHConfig`. -/
def sfrKV (home : Option GoStr) (st : SfrState) (key value : GoStr) : SfrState :=
  if key = "host".data then
    { servers := st.servers ++ optList st.current,
      current := some { aliasName := value, port := DefaultPort } }
  else if key = "hostname".data then
    { st with current := st.current.map fun c => { c with host := value } }
  else if key = "user".data then
    { st with current := st.current.map fun c => { c with user := value } }
  else if key = "port".data then
    { st with current := st.current.map fun c =>
        match goAtoi value with
        | some p => { c with port := p }
        | none => c }
  else if key = "identityfile".data then
    { st with current := st.current.map fun c =>
        { c with key := expandTilde home value } }
  else st

/-- One iteration of the scanner loop of `parseSSHConfig` (the Go code
binds `line := strings.TrimSpace(scanner.Text())`; it is substituted
here). -/
def sfrLine (home : Option GoStr) (st : SfrState) (rawLine : GoStr) : SfrState :=
  if goTrimSpace rawLine = [] then st
  else if goHasPref "#".data (goTrimSpace rawLine) then st
  else
    match goFields (goTrimSpace rawLine) with
    | [] => st
    | [_] => st
    | k :: rest => sfrKV home st (goToLower k) (joinWords rest)

/-- `parseSSHConfig` over an already-split list of lines. -/
def sfrParseLines (home : Option GoStr) (lines : List GoStr) : List Server :=
  let st := lines.foldl (sfrLine home) {}
  st.servers ++ optList st.current

/-- `serverRepo.parseSSHConfig` (`server_file_repo.go` 194-268) applied to
the contents of the primary config file. -/
def parseSSHConfig (home : Option GoStr) (content : GoStr) : List Server :=
  sfrParseLines home (goScanLines content)

/-- The lines written for one server by `writeSSHConfig`
(`server_file_repo.go` 286-309): marker comment, `Host`, then the optional
field lines. -/
def sfrServerLines (s : Server) : List GoStr :=
  [ManagedByComment, "Host ".data ++ s.aliasName] ++
  (if s.host ≠ [] then ["    HostName ".data ++ s.host] else []) ++
  (if s.user ≠ [] then ["    User ".data ++ s.user] else []) ++
  (if s.port ≠ 0 ∧ s.port ≠ DefaultPort then ["    Port ".data ++ goIntToStr s.port] else []) ++
  (if s.key ≠ [] then ["    IdentityFile ".data ++ s.key] else [])

/-- Terminate every line with `'\n'` and concatenate. -/
def unlines (ls : List GoStr) : GoStr := (ls.map (· ++ ['\n'])).flatten

/-- Join blocks with one extra `"\n"` between consecutive blocks
(the `if i > 0 { writer.WriteString("\n") }` of `writeSSHConfig`). -/
def joinBlocks : List GoStr → GoStr
  | [] => []
  | [b] => b
  | b :: bs => b ++ '\n' :: joinBlocks bs

/-- `serverRepo.writeSSHConfig` (`server_file_repo.go` 270-312): the byte
content written to the primary config file. -/
def writeSSHConfig (servers : List Server) : GoStr :=
  joinBlocks (servers.map fun s => unlines (sfrServerLines s))

/-! ## Word-level lemmas about the string models -/

/-- A string with no whitespace characters. -/
def NS (w : GoStr) : Prop := ∀ c ∈ w, goIsSpace c = false

/-- A well-formed word list: non-empty, every word non-empty and
whitespace-free.  `strings.Fields` produces exactly such lists (when
non-empty), and `joinWords` is injective on them. -/
def wordsOK (ws : List GoStr) : Prop :=
  ws ≠ [] ∧ ∀ w ∈ ws, w ≠ [] ∧ NS w

/-- A value that is a single-space join of a well-formed word list: what
the parsers produce for every directive value. -/
def normalVal (v : GoStr) : Prop := ∃ ws, wordsOK ws ∧ v = joinWords ws

/-- Folding a whitespace-free chunk only extends the word in progress. -/
theorem foldl_fieldStep_NS {w : GoStr} (hw : NS w) :
    ∀ st : List GoStr × GoStr, w.foldl fieldStep st = (st.1, st.2 ++ w) := by
  induction w with
  | nil => intro st; simp
  | cons c cs ih =>
    intro st
    have hc := hw c (by simp)
    have hcs : NS cs := fun d hd => hw d (by simp [hd])
    simp only [List.foldl_cons, fieldStep, hc, Bool.false_eq_true, if_false]
    rw [ih hcs]
    simp

theorem goFields_joinWords {ws : List GoStr} (h : wordsOK ws) :
    goFields (joinWords ws) = ws := by
  suffices H : ∀ ws, (∀ w ∈ ws, w ≠ [] ∧ NS w) → ∀ done,
      fieldFinish ((joinWords ws).foldl fieldStep (done, [])) =
        done ++ ws by
    have := H ws h.2 []
    simpa [goFields] using this
  intro ws
  induction ws with
  | nil => intro _ done; simp [joinWords, fieldFinish]
  | cons w rest ih =>
    intro hall done
    obtain ⟨hw_ne, hw_ns⟩ := hall w (by simp)
    cases rest with
    | nil =>
      simp only [joinWords]
      rw [foldl_fieldStep_NS hw_ns]
      simp [fieldFinish, hw_ne]
    | cons w2 rest2 =>
      have hjw : joinWords (w :: w2 :: rest2) = w ++ ' ' :: joinWords (w2 :: rest2) := rfl
      rw [hjw, List.foldl_append, foldl_fieldStep_NS hw_ns]
      simp only [List.nil_append, List.foldl_cons]
      have hstep : fieldStep (done, w) ' ' = (done ++ [w], []) := by
        simp [fieldStep, hw_ne]
        decide
      rw [hstep, ih (fun x hx => hall x (by simp [hx])) (done ++ [w])]
      simp

theorem goFields_wordsOK : ∀ (l : GoStr), ∀ w ∈ goFields l, w ≠ [] ∧ NS w := by
  suffices H : ∀ (l : GoStr) (st : List GoStr × GoStr),
      (∀ w ∈ st.1, w ≠ [] ∧ NS w) → NS st.2 →
      ∀ w ∈ fieldFinish (l.foldl fieldStep st), w ≠ [] ∧ NS w by
    intro l w hw
    exact H l ([], []) (by simp) (by intro c hc; simp at hc) w hw
  intro l
  induction l with
  | nil =>
    intro st h1 h2 w hw
    simp only [List.foldl_nil, fieldFinish] at hw
    rcases List.mem_append.mp hw with hw | hw
    · exact h1 w hw
    · split at hw
      · simp at hw
      · next hne =>
        simp only [List.mem_singleton] at hw
        subst hw
        exact ⟨hne, h2⟩
  | cons c cs ih =>
    intro st h1 h2 w hw
    simp only [List.foldl_cons] at hw
    by_cases hc : goIsSpace c = true
    · refine ih (st.1 ++ (if st.2 = [] then [] else [st.2]), []) ?_ ?_ w ?_
      · intro x hx
        rcases List.mem_append.mp hx with hx | hx
        · exact h1 x hx
        · split at hx
          · simp at hx
          · next hne =>
            simp only [List.mem_singleton] at hx
            subst hx
            exact ⟨hne, h2⟩
      · intro d hd; simp at hd
      · simpa [fieldStep, hc] using hw
    · refine ih (st.1, st.2 ++ [c]) h1 ?_ w ?_
      · intro d hd
        rcases List.mem_append.mp hd with hd | hd
        · exact h2 d hd
        · simp only [List.mem_singleton] at hd
          subst hd
          simpa using hc
      · simpa [fieldStep, hc] using hw

/-- The tail a word list contributes after the first word: nothing, or a
separating space followed by the join of the rest. -/
def jtail : List GoStr → GoStr
  | [] => []
  | ws => ' ' :: joinWords ws

/-- Unfold one word of a join. -/
theorem joinWords_cons (w : GoStr) (ws : List GoStr) :
    joinWords (w :: ws) = w ++ jtail ws := by
  cases ws <;> simp [joinWords, jtail]

/-- The head of a join is the head of the first word: in particular it is
not a whitespace character. -/
theorem joinWords_head {c : Char} {t : GoStr} (ws : List GoStr) :
    joinWords ((c :: t) :: ws) = c :: (t ++ jtail ws) := by
  cases ws <;> simp [joinWords, jtail]

theorem joinWords_ne_nil {ws : List GoStr} (h : wordsOK ws) :
    joinWords ws ≠ [] := by
  obtain ⟨hne, hall⟩ := h
  cases ws with
  | nil => simp at hne
  | cons w rest =>
    obtain ⟨hw_ne, -⟩ := hall w (by simp)
    cases rest <;> simp [joinWords, hw_ne]

/-- The last character of a well-formed join is not whitespace. -/
theorem joinWords_last_nonspace {ws : List GoStr} (h : wordsOK ws) :
    ∀ c, (joinWords ws).getLast? = some c → goIsSpace c = false := by
  obtain ⟨hne, hall⟩ := h
  induction ws with
  | nil => simp at hne
  | cons w rest ih =>
    obtain ⟨hw_ne, hw_ns⟩ := hall w (by simp)
    cases rest with
    | nil =>
      intro c hc
      simp only [joinWords] at hc
      exact hw_ns c (List.mem_of_mem_getLast? hc)
    | cons w2 rest2 =>
      intro c hc
      have hall2 : ∀ x ∈ w2 :: rest2, x ≠ [] ∧ NS x := fun x hx => hall x (by simp [hx])
      have hjw : joinWords (w :: w2 :: rest2) = w ++ ' ' :: joinWords (w2 :: rest2) := rfl
      rw [hjw] at hc
      have hne2 : joinWords (w2 :: rest2) ≠ [] := joinWords_ne_nil ⟨by simp, hall2⟩
      rw [List.getLast?_append] at hc
      have htail : (' ' :: joinWords (w2 :: rest2)).getLast? = (joinWords (w2 :: rest2)).getLast? := by
        cases hj : joinWords (w2 :: rest2) with
        | nil => exact absurd hj hne2
        | cons a as => simp
      rw [htail] at hc
      obtain ⟨d, hd⟩ : ∃ d, (joinWords (w2 :: rest2)).getLast? = some d := by
        cases hj : joinWords (w2 :: rest2) with
        | nil => exact absurd hj hne2
        | cons a as => exact ⟨(a :: as).getLast (by simp), List.getLast?_eq_getLast _ _⟩
      rw [hd] at hc
      simp only [Option.or_some, Option.some.injEq] at hc
      subst hc
      exact ih (by simp) hall2 d hd

/-- The first character of a well-formed join is not whitespace. -/
theorem joinWords_head_nonspace {ws : List GoStr} (h : wordsOK ws) :
    ∀ c, (joinWords ws).head? = some c → goIsSpace c = false := by
  obtain ⟨hne, hall⟩ := h
  cases ws with
  | nil => simp at hne
  | cons w rest =>
    obtain ⟨hw_ne, hw_ns⟩ := hall w (by simp)
    obtain ⟨c0, t, rfl⟩ : ∃ c0 t, w = c0 :: t := by
      cases w with
      | nil => simp at hw_ne
      | cons c0 t => exact ⟨c0, t, rfl⟩
    intro c hc
    rw [joinWords_head] at hc
    simp only [List.head?_cons, Option.some.injEq] at hc
    subst hc
    exact hw_ns c0 (by simp)

/-- `TrimSpace` removes exactly a leading run of whitespace when the
remainder starts and ends with non-whitespace. -/
theorem goTrimSpace_clean {sp w : GoStr}
    (hsp : ∀ c ∈ sp, goIsSpace c = true) (hne : w ≠ [])
    (hhead : ∀ c, w.head? = some c → goIsSpace c = false)
    (hlast : ∀ c, w.getLast? = some c → goIsSpace c = false) :
    goTrimSpace (sp ++ w) = w := by
  have hdw : (sp ++ w).dropWhile goIsSpace = w := by
    induction sp with
    | nil =>
      cases w with
      | nil => simp at hne
      | cons c t =>
        have := hhead c (by simp)
        simp [List.dropWhile_cons, this]
    | cons s ss ih =>
      have hs := hsp s (by simp)
      simp only [List.cons_append, List.dropWhile_cons, hs, if_pos]
      exact ih (fun c hc => hsp c (by simp [hc]))
  unfold goTrimSpace
  rw [hdw]
  have hrev : w.reverse.dropWhile goIsSpace = w.reverse := by
    cases hw : w.reverse with
    | nil => simp
    | cons c t =>
      have hc : w.getLast? = some c := by
        rw [← List.head?_reverse, hw]; simp
      have := hlast c hc
      simp [List.dropWhile_cons, this]
  rw [hrev, List.reverse_reverse]

/-- Specialization: trimming a clean word-join line with a leading-space
indent gives back the line. -/
theorem goTrimSpace_join {sp : GoStr} {ws : List GoStr}
    (hsp : ∀ c ∈ sp, goIsSpace c = true) (h : wordsOK ws) :
    goTrimSpace (sp ++ joinWords ws) = joinWords ws :=
  goTrimSpace_clean hsp (joinWords_ne_nil h)
    (joinWords_head_nonspace h) (joinWords_last_nonspace h)

/-! ## Decimal formatting and parsing round-trip -/

theorem natDigits_eq (n : Nat) :
    natDigits n = if n < 10 then [Char.ofNat (48 + n)]
      else natDigits (n / 10) ++ [Char.ofNat (48 + n % 10)] := by
  unfold natDigits
  cases n with
  | zero => simp [natDigitsAux]
  | succ m =>
    simp only [natDigitsAux]
    by_cases hn : m + 1 < 10
    · rw [if_pos hn, if_pos hn]
    · rw [if_neg hn, if_neg hn]
      have hdiv : (m + 1) / 10 < m + 1 := Nat.div_lt_self (by omega) (by omega)
      rw [natDigitsAux_irrel m ((m + 1) / 10) ((m + 1) / 10) (by omega) (by omega)]

theorem digitVal_ofNat {n : Nat} (h : n < 10) :
    digitVal (Char.ofNat (48 + n)) = some n := by
  interval_cases n <;> decide

theorem natDigits_ne_nil (n : Nat) : natDigits n ≠ [] := by
  rw [natDigits_eq]
  split <;> simp

theorem digitsToNat_go_append (a b : GoStr) (acc : Nat) :
    digitsToNat.go (a ++ b) acc =
      match digitsToNat.go a acc with
      | none => none
      | some m => digitsToNat.go b m := by
  induction a generalizing acc with
  | nil => simp [digitsToNat.go]
  | cons c cs ih =>
    simp only [List.cons_append, digitsToNat.go]
    cases digitVal c with
    | none => rfl
    | some d => exact ih (acc * 10 + d)

theorem digitsToNat_go_natDigits (n : Nat) : ∀ acc,
    digitsToNat.go (natDigits n) acc = some (acc * 10 ^ (natDigits n).length + n) := by
  induction n using Nat.strong_induction_on with
  | _ n ih =>
    intro acc
    by_cases h : n < 10
    · rw [natDigits_eq, if_pos h]
      simp [digitsToNat.go, digitVal_ofNat h]
    · rw [natDigits_eq, if_neg h]
      rw [digitsToNat_go_append]
      have hlt : n / 10 < n := Nat.div_lt_self (by omega) (by omega)
      rw [ih (n / 10) hlt acc]
      simp only [digitsToNat.go, digitVal_ofNat (Nat.mod_lt n (by omega))]
      have : (natDigits (n / 10) ++ [Char.ofNat (48 + n % 10)]).length =
          (natDigits (n / 10)).length + 1 := by simp
      rw [this]
      congr 1
      have hmoddiv : n % 10 + 10 * (n / 10) = n := Nat.mod_add_div n 10
      ring_nf
      omega

theorem digitsToNat_natDigits (n : Nat) : digitsToNat (natDigits n) = some n := by
  have hne := natDigits_ne_nil n
  have : digitsToNat (natDigits n) = digitsToNat.go (natDigits n) 0 := by
    unfold digitsToNat
    cases h : natDigits n with
    | nil => exact absurd h hne
    | cons c cs => rfl
  rw [this, digitsToNat_go_natDigits]
  simp

/-- Every character `natDigits` produces is a decimal digit. -/
theorem natDigits_digits (n : Nat) : ∀ c ∈ natDigits n, ∃ m, m < 10 ∧ c = Char.ofNat (48 + m) := by
  induction n using Nat.strong_induction_on with
  | _ n ih =>
    intro c hc
    by_cases h : n < 10
    · rw [natDigits_eq, if_pos h] at hc
      simp only [List.mem_singleton] at hc
      exact ⟨n, h, hc⟩
    · rw [natDigits_eq, if_neg h] at hc
      rcases List.mem_append.mp hc with hc | hc
      · exact ih (n / 10) (Nat.div_lt_self (by omega) (by omega)) c hc
      · simp only [List.mem_singleton] at hc
        exact ⟨n % 10, Nat.mod_lt n (by omega), hc⟩

theorem digit_not_sign {m : Nat} (h : m < 10) :
    Char.ofNat (48 + m) ≠ '+' ∧ Char.ofNat (48 + m) ≠ '-' ∧
    goIsSpace (Char.ofNat (48 + m)) = false := by
  interval_cases m <;> refine ⟨by decide, by decide, by decide⟩

/-- `natDigits` contains no whitespace and does not start with a sign. -/
theorem natDigits_NS (n : Nat) : NS (natDigits n) := by
  intro c hc
  obtain ⟨m, hm, rfl⟩ := natDigits_digits n c hc
  exact (digit_not_sign hm).2.2

theorem goHasPref_single (a b : Char) (l : GoStr) :
    goHasPref [a] (b :: l) = (a == b) := by
  simp [goHasPref, List.isPrefixOf]

theorem goAtoi_natDigits (n : Nat) (hn : (n : Int) ≤ 2 ^ 63 - 1) :
    goAtoi (natDigits n) = some (n : Int) := by
  obtain ⟨c, cs, hc⟩ : ∃ c cs, natDigits n = c :: cs := by
    cases h : natDigits n with
    | nil => exact absurd h (natDigits_ne_nil n)
    | cons c cs => exact ⟨c, cs, rfl⟩
  obtain ⟨m, hm, rfl⟩ := natDigits_digits n c (by rw [hc]; simp)
  unfold goAtoi
  rw [show ("+".data : GoStr) = ['+'] from rfl, show ("-".data : GoStr) = ['-'] from rfl]
  rw [hc, goHasPref_single, goHasPref_single]
  rw [if_neg (by simp [((digit_not_sign hm).1 : _)]; intro h; exact (digit_not_sign hm).1 h.symm)]
  rw [if_neg (by intro h; simp at h; exact (digit_not_sign hm).2.1 h.symm)]
  rw [← hc, digitsToNat_natDigits n]
  simp only [Option.bind_some, Option.some_bind]
  rw [if_pos hn]

/-- Go's `%d` formatting followed by `strconv.Atoi` is the identity on the
`int64` range. -/
theorem goAtoi_goIntToStr {p : Int} (h1 : -(2 ^ 63) ≤ p) (h2 : p ≤ 2 ^ 63 - 1) :
    goAtoi (goIntToStr p) = some p := by
  unfold goIntToStr
  by_cases hp : p < 0
  · rw [if_pos hp]
    unfold goAtoi
    rw [show ("+".data : GoStr) = ['+'] from rfl, show ("-".data : GoStr) = ['-'] from rfl]
    rw [goHasPref_single, goHasPref_single]
    rw [if_neg (by simp), if_pos (by simp)]
    simp only [List.drop_succ_cons, List.drop_zero]
    rw [digitsToNat_natDigits]
    have habs : (p.natAbs : Int) = -p := by omega
    have hle : (p.natAbs : Int) ≤ 2 ^ 63 := by omega
    simp only [Option.some_bind]
    rw [if_pos hle, habs]
    simp
  · rw [if_neg hp]
    have habs : (p.natAbs : Int) = p := by omega
    rw [goAtoi_natDigits p.natAbs (by omega)]
    rw [habs]

/-- `goIntToStr` output is non-empty and whitespace-free. -/
theorem goIntToStr_wordOK (p : Int) : goIntToStr p ≠ [] ∧ NS (goIntToStr p) := by
  unfold goIntToStr
  split
  · refine ⟨by simp, ?_⟩
    intro c hc
    simp only [List.mem_cons] at hc
    rcases hc with rfl | hc
    · decide
    · exact natDigits_NS _ c hc
  · exact ⟨natDigits_ne_nil _, natDigits_NS _⟩

/-! ## Round trip of `parseSSHConfig` and `writeSSHConfig` (claim C1) -/

/-- Sanity conditions on the home directory under which `~` expansion is
deterministic and idempotent: `os.UserHomeDir` never returns an empty
string, and a realistic home path contains no whitespace and does not
itself begin with `~/`. -/
def homeOK : Option GoStr → Prop
  | none => True
  | some h => h ≠ [] ∧ NS h ∧ goHasPref "~/".data h = false

theorem goHasPref_two_iff (a b : Char) (l : GoStr) :
    goHasPref [a, b] l = true ↔ ∃ t, l = a :: b :: t := by
  constructor
  · intro h
    match l, h with
    | [], h => simp [goHasPref, List.isPrefixOf] at h
    | [c], h => simp [goHasPref, List.isPrefixOf] at h
    | a' :: b' :: t, h =>
      simp only [goHasPref, List.isPrefixOf, Bool.and_eq_true, beq_iff_eq] at h
      obtain ⟨rfl, h2⟩ := h
      obtain ⟨rfl, -⟩ := h2
      exact ⟨t, rfl⟩
  · rintro ⟨t, rfl⟩
    simp [goHasPref, List.isPrefixOf]

/-- If the join of a sane home with a path starts with `~/`, the home was
exactly `"~"`. -/
theorem goJoinPath_pref {h x : GoStr} (hne : h ≠ [])
    (hnp : goHasPref "~/".data h = false)
    (hp2 : goHasPref "~/".data (goJoinPath h x) = true) : h = ['~'] := by
  obtain ⟨c, t, rfl⟩ : ∃ c t, h = c :: t := by
    cases h with
    | nil => simp at hne
    | cons c t => exact ⟨c, t, rfl⟩
  unfold goJoinPath at hp2
  rw [if_neg (by simp)] at hp2
  obtain ⟨rest2, heq⟩ := (goHasPref_two_iff '~' '/' _).mp hp2
  have hc : c = '~' := by
    have := congrArg List.head? heq
    simpa using this
  subst hc
  cases t with
  | nil => rfl
  | cons d t' =>
    exfalso
    have := congrArg List.tail heq
    simp only [List.cons_append, List.tail_cons] at this
    have hd : d = '/' := by
      have := congrArg List.head? this
      simpa using this
    subst hd
    rw [(goHasPref_two_iff '~' '/' ('~' :: '/' :: t')).mpr ⟨t', rfl⟩] at hnp
    simp at hnp

/-- Expanding a path that is itself the result of a `goJoinPath` with a
sane home is the identity. -/
theorem expandTilde_joinPath {h x : GoStr} (hne : h ≠ [])
    (hnp : goHasPref "~/".data h = false) :
    expandTilde (some h) (goJoinPath h x) = goJoinPath h x := by
  by_cases hp2 : goHasPref "~/".data (goJoinPath h x) = true
  · have hh := goJoinPath_pref hne hnp hp2
    subst hh
    unfold expandTilde
    rw [if_pos hp2]
    show goJoinPath ['~'] ((goJoinPath ['~'] x).drop 2) = goJoinPath ['~'] x
    unfold goJoinPath
    rw [if_neg (by simp), if_neg (by simp)]
    rfl
  · unfold expandTilde
    rw [if_neg hp2]

/-- `~` expansion is idempotent for any sane home directory. -/
theorem expandTilde_idem {home : Option GoStr} (hh : homeOK home) (v : GoStr) :
    expandTilde home (expandTilde home v) = expandTilde home v := by
  by_cases hp : goHasPref "~/".data v = true
  · cases home with
    | none =>
      unfold expandTilde
      rw [if_pos hp, if_pos hp]
    | some h =>
      obtain ⟨hne, -, hnp⟩ := hh
      have hstep : expandTilde (some h) v = goJoinPath h (v.drop 2) := by
        unfold expandTilde
        rw [if_pos hp]
      rw [hstep]
      exact expandTilde_joinPath hne hnp
  · unfold expandTilde
    rw [if_neg hp, if_neg hp]

/-- `~` expansion preserves well-formedness of values, for any sane home
directory. -/
theorem expandTilde_normal {home : Option GoStr} (hh : homeOK home) {v : GoStr}
    (hv : normalVal v) : normalVal (expandTilde home v) := by
  by_cases hp : goHasPref "~/".data v = true
  · cases home with
    | none =>
      unfold expandTilde
      rw [if_pos hp]
      exact hv
    | some h =>
      obtain ⟨hne, hNS, hnp⟩ := hh
      obtain ⟨ws, hws, rfl⟩ := hv
      obtain ⟨wne, wall⟩ := hws
      obtain ⟨w1, ws', rfl⟩ : ∃ w1 ws', ws = w1 :: ws' := by
        cases ws with
        | nil => simp at wne
        | cons a b => exact ⟨a, b, rfl⟩
      obtain ⟨hw1ne, hw1ns⟩ := wall w1 (by simp)
      obtain ⟨c1, t1, rfl⟩ : ∃ c t, w1 = c :: t := by
        cases w1 with
        | nil => simp at hw1ne
        | cons c t => exact ⟨c, t, rfl⟩
      obtain ⟨rest, hv_eq⟩ := (goHasPref_two_iff '~' '/' _).mp hp
      rw [joinWords_head] at hv_eq
      obtain ⟨hc1, htail⟩ : c1 = '~' ∧ t1 ++ jtail ws' = '/' :: rest := by
        have h1 := congrArg List.head? hv_eq
        have h2 := congrArg List.tail hv_eq
        simp only [List.head?_cons, Option.some.injEq, List.tail_cons] at h1 h2
        exact ⟨h1, h2⟩
      subst hc1
      obtain ⟨t1', rfl⟩ : ∃ t1', t1 = '/' :: t1' := by
        cases t1 with
        | nil =>
          simp only [List.nil_append] at htail
          cases ws' with
          | nil => simp [jtail] at htail
          | cons w2 ws2 =>
            exfalso
            have := congrArg List.head? htail
            simp [jtail] at this
        | cons d t1' =>
          have := congrArg List.head? htail
          simp only [List.cons_append, List.head?_cons, Option.some.injEq] at this
          exact ⟨t1', by rw [this]⟩
      have hdrop : (joinWords (('~' :: '/' :: t1') :: ws')).drop 2 =
          t1' ++ jtail ws' := by
        rw [joinWords_head]
        rfl
      have hresult : expandTilde (some h) (joinWords (('~' :: '/' :: t1') :: ws')) =
          joinWords ((h ++ '/' :: t1') :: ws') := by
        unfold expandTilde
        rw [if_pos hp]
        show goJoinPath h (List.drop 2 (joinWords (('~' :: '/' :: t1') :: ws'))) = _
        unfold goJoinPath
        rw [if_neg hne, hdrop, joinWords_cons]
        simp
      rw [hresult]
      refine ⟨(h ++ '/' :: t1') :: ws', ⟨by simp, ?_⟩, rfl⟩
      intro w hw
      simp only [List.mem_cons] at hw
      rcases hw with rfl | hw
      · refine ⟨by simp, ?_⟩
        intro c hc
        rcases List.mem_append.mp hc with hc | hc
        · exact hNS c hc
        · simp only [List.mem_cons] at hc
          rcases hc with rfl | hc
          · decide
          · exact hw1ns c (by simp [hc])
      · exact wall w (by simp [hw])
  · unfold expandTilde
    rw [if_neg hp]
    exact hv

theorem goAtoi_range {l : GoStr} {p : Int} (h : goAtoi l = some p) :
    -(2 ^ 63) ≤ p ∧ p ≤ 2 ^ 63 - 1 := by
  unfold goAtoi at h
  split at h
  · cases hdg : digitsToNat (l.drop 1) with
    | none => rw [hdg] at h; simp at h
    | some n =>
      rw [hdg] at h
      simp only [Option.some_bind] at h
      split at h
      · next hc => cases h; constructor <;> omega
      · simp at h
  · split at h
    · cases hdg : digitsToNat (l.drop 1) with
      | none => rw [hdg] at h; simp at h
      | some n =>
        rw [hdg] at h
        simp only [Option.some_bind] at h
        split at h
        · next hc => cases h; constructor <;> omega
        · simp at h
    · cases hdg : digitsToNat l with
      | none => rw [hdg] at h; simp at h
      | some n =>
        rw [hdg] at h
        simp only [Option.some_bind] at h
        split at h
        · next hc => cases h; constructor <;> omega
        · simp at h

/-- A record exactly as `parseSSHConfig` can build it: only the five
structural fields are populated. -/
def mkSfr (a h u : GoStr) (p : Int) (k : GoStr) : Server :=
  { aliasName := a, host := h, user := u, port := p, key := k }

/-- Wellformedness of a record for the write/parse round trip: the fields
are whitespace-normal words as the parser produces them, the port is an
`int64`, the key is stable under `~` expansion, and no other field is
populated. -/
def sfrWF (home : Option GoStr) (s : Server) : Prop :=
  normalVal s.aliasName ∧
  (s.host = [] ∨ normalVal s.host) ∧
  (s.user = [] ∨ normalVal s.user) ∧
  (-(2 ^ 63) ≤ s.port ∧ s.port ≤ 2 ^ 63 - 1) ∧
  (s.key = [] ∨ normalVal s.key) ∧
  expandTilde home s.key = s.key ∧
  s = mkSfr s.aliasName s.host s.user s.port s.key

/-- General shape of the `current`-updating branches of `sfrKV`. -/
theorem curr_map_eq {st : SfrState} {f : Server → Server} {s : Server}
    (hs : ({ st with current := st.current.map f } : SfrState).current = some s) :
    ∃ c, st.current = some c ∧ s = f c := by
  have h : st.current.map f = some s := hs
  cases hc : st.current with
  | none => rw [hc] at h; simp at h
  | some c =>
    rw [hc] at h
    simp only [Option.map_some', Option.some.injEq] at h
    exact ⟨c, rfl, h.symm⟩

/-- A freshly started record (from a `host` line) is wellformed. -/
theorem sfrWF_fresh {home : Option GoStr} {v : GoStr} (hval : normalVal v) :
    sfrWF home { aliasName := v, port := DefaultPort } := by
  refine ⟨hval, Or.inl rfl, Or.inl rfl, ?_, Or.inl rfl, ?_, rfl⟩
  · show -(2 ^ 63 : Int) ≤ DefaultPort ∧ (DefaultPort : Int) ≤ 2 ^ 63 - 1
    unfold DefaultPort
    omega
  · show expandTilde home [] = []
    unfold expandTilde
    simp [goHasPref, List.isPrefixOf]

/-- Every record delivered by the parser's fold is wellformed. -/
theorem sfrParse_wf {home : Option GoStr} (hh : homeOK home) (lines : List GoStr) :
    ∀ s ∈ sfrParseLines home lines, sfrWF home s := by
  suffices H : ∀ (lines : List GoStr) (st : SfrState),
      (∀ s ∈ st.servers, sfrWF home s) → (∀ s, st.current = some s → sfrWF home s) →
      (∀ s ∈ (lines.foldl (sfrLine home) st).servers, sfrWF home s) ∧
      (∀ s, (lines.foldl (sfrLine home) st).current = some s → sfrWF home s) by
    intro s hs
    unfold sfrParseLines at hs
    obtain ⟨H1, H2⟩ := H lines {} (by simp) (by simp)
    rcases List.mem_append.mp hs with hs | hs
    · exact H1 s hs
    · cases hcur : (lines.foldl (sfrLine home) ({} : SfrState)).current with
      | none => rw [hcur] at hs; simp [optList] at hs
      | some c =>
        rw [hcur] at hs
        simp only [optList, List.mem_singleton] at hs
        subst hs
        exact H2 s hcur
  intro lines
  induction lines with
  | nil => intro st h1 h2; exact ⟨h1, h2⟩
  | cons line rest ih =>
    intro st h1 h2
    refine ih (sfrLine home st line) ?_ ?_
    · -- servers of the new state are wellformed
      intro s hs
      unfold sfrLine at hs
      split at hs
      · exact h1 s hs
      · split at hs
        · exact h1 s hs
        · split at hs
          · exact h1 s hs
          · exact h1 s hs
          · next k vrest hvne heq =>
            unfold sfrKV at hs
            split at hs
            · -- host: the previous record is flushed
              have hmem : s ∈ st.servers ++ optList st.current := hs
              rcases List.mem_append.mp hmem with hm | hm
              · exact h1 s hm
              · cases hcur : st.current with
                | none => rw [hcur] at hm; simp [optList] at hm
                | some c =>
                  rw [hcur] at hm
                  simp only [optList, List.mem_singleton] at hm
                  subst hm
                  exact h2 s hcur
            · split at hs
              · exact h1 s hs
              · split at hs
                · exact h1 s hs
                · split at hs
                  · exact h1 s hs
                  · split at hs
                    · exact h1 s hs
                    · exact h1 s hs
    · -- the new current record (if any) is wellformed
      intro s hs
      unfold sfrLine at hs
      split at hs
      · exact h2 s hs
      · split at hs
        · exact h2 s hs
        · split at hs
          · exact h2 s hs
          · exact h2 s hs
          · next k vrest hvne heq =>
            unfold sfrKV at hs
            have hval : normalVal (joinWords vrest) := by
              refine ⟨vrest, ⟨fun h => hvne h, ?_⟩, rfl⟩
              intro w hw
              exact goFields_wordsOK (goTrimSpace line) w (by rw [heq]; simp [hw])
            split at hs
            · -- host
              have h' : some ({ aliasName := joinWords vrest, port := DefaultPort } : Server)
                  = some s := hs
              obtain rfl := (Option.some.injEq ..).mp h'
              exact sfrWF_fresh hval
            · split at hs
              · -- hostname
                obtain ⟨c, hcur, rfl⟩ := curr_map_eq hs
                obtain ⟨w1, w2, w3, w4, w5, w6, w7⟩ := h2 c hcur
                exact ⟨w1, Or.inr hval, w3, w4, w5, w6, by rw [w7]; rfl⟩
              · split at hs
                · -- user
                  obtain ⟨c, hcur, rfl⟩ := curr_map_eq hs
                  obtain ⟨w1, w2, w3, w4, w5, w6, w7⟩ := h2 c hcur
                  exact ⟨w1, w2, Or.inr hval, w4, w5, w6, by rw [w7]; rfl⟩
                · split at hs
                  · -- port
                    obtain ⟨c, hcur, rfl⟩ := curr_map_eq hs
                    obtain ⟨w1, w2, w3, w4, w5, w6, w7⟩ := h2 c hcur
                    cases hat : goAtoi (joinWords vrest) with
                    | none => simp only [hat]; exact ⟨w1, w2, w3, w4, w5, w6, w7⟩
                    | some p =>
                      simp only [hat]
                      exact ⟨w1, w2, w3, goAtoi_range hat, w5, w6, by rw [w7]; rfl⟩
                  · split at hs
                    · -- identityfile
                      obtain ⟨c, hcur, rfl⟩ := curr_map_eq hs
                      obtain ⟨w1, w2, w3, w4, w5, w6, w7⟩ := h2 c hcur
                      exact ⟨w1, w2, w3, w4,
                        Or.inr (expandTilde_normal hh hval),
                        expandTilde_idem hh _, by rw [w7]; rfl⟩
                    · exact h2 s hs

/-! ### Evaluating the parser on the writer's own lines -/

/-- Establish `NS` by boolean evaluation. -/
theorem NS_of_all {w : GoStr} (h : w.all (fun c => !goIsSpace c) = true) : NS w := by
  intro c hc
  have := List.all_eq_true.mp h c hc
  simpa using this

/-- Establish the head condition by evaluating the head. -/
theorem head_ne_hash (w : GoStr) (d : Char) (hw : w.head? = some d) (hd : d ≠ '#') :
    ∀ c, w.head? = some c → c ≠ '#' := by
  intro c hc
  rw [hw] at hc
  cases hc
  exact hd

theorem sfrLine_empty (home : Option GoStr) (st : SfrState) : sfrLine home st [] = st := by
  unfold sfrLine
  rw [if_pos (by decide)]

theorem sfrLine_comment (home : Option GoStr) (st : SfrState) :
    sfrLine home st ManagedByComment = st := by
  unfold sfrLine
  rw [if_neg (by decide), if_pos (by decide)]

/-- A directive line `indent ++ keyword ++ " " ++ value` is dispatched to
the key switch with the lower-cased keyword and the value. -/
theorem sfrLine_directive (home : Option GoStr) (st : SfrState) {sp kw : GoStr}
    {ws : List GoStr} (hsp : ∀ c ∈ sp, goIsSpace c = true)
    (hkw_ne : kw ≠ []) (hkw_ns : NS kw)
    (hkw_hash : ∀ c, kw.head? = some c → c ≠ '#')
    (hws : wordsOK ws) :
    sfrLine home st (sp ++ joinWords (kw :: ws)) =
      sfrKV home st (goToLower kw) (joinWords ws) := by
  have hkws : wordsOK (kw :: ws) := by
    refine ⟨by simp, ?_⟩
    intro w hw
    simp only [List.mem_cons] at hw
    rcases hw with rfl | hw
    · exact ⟨hkw_ne, hkw_ns⟩
    · exact hws.2 w hw
  obtain ⟨c0, t0, rfl⟩ : ∃ c0 t0, kw = c0 :: t0 := by
    cases kw with
    | nil => simp at hkw_ne
    | cons c0 t0 => exact ⟨c0, t0, rfl⟩
  have htrim : goTrimSpace (sp ++ joinWords ((c0 :: t0) :: ws)) =
      joinWords ((c0 :: t0) :: ws) := goTrimSpace_join hsp hkws
  unfold sfrLine
  rw [htrim]
  rw [if_neg (joinWords_ne_nil hkws)]
  have hpref : goHasPref "#".data (joinWords ((c0 :: t0) :: ws)) = false := by
    rw [joinWords_head]
    have hc0 := hkw_hash c0 (by simp)
    rw [show ("#".data : GoStr) = ['#'] from rfl, goHasPref_single]
    simp [hc0]
    intro h
    exact absurd h.symm hc0
  rw [if_neg (by rw [hpref]; simp)]
  rw [goFields_joinWords hkws]
  obtain ⟨w0, ws', rfl⟩ : ∃ w0 ws', ws = w0 :: ws' := by
    cases ws with
    | nil => exact absurd rfl hws.1
    | cons w0 ws' => exact ⟨w0, ws', rfl⟩
  rfl

/-- Dispatch of a `Host` line. -/
theorem sfrLine_host (home : Option GoStr) (st : SfrState) {a : GoStr}
    (ha : normalVal a) :
    sfrLine home st ("Host ".data ++ a) =
      { servers := st.servers ++ optList st.current,
        current := some { aliasName := a, port := DefaultPort } } := by
  obtain ⟨ws, hws, rfl⟩ := ha
  have hline : ("Host ".data : GoStr) ++ joinWords ws =
      [] ++ joinWords ("Host".data :: ws) := by
    rw [joinWords_cons]
    cases hws' : ws with
    | nil => exact absurd hws' hws.1
    | cons w0 ws' => simp [jtail]
  rw [hline, sfrLine_directive home st (by simp) (by decide) (NS_of_all (by decide))
    (head_ne_hash "Host".data 'H' rfl (by decide)) hws]
  show sfrKV home st ("host".data) (joinWords ws) = _
  unfold sfrKV
  rw [if_pos rfl]

/-- Dispatch of an indented field line, generically over the keyword. -/
theorem sfrLine_field (home : Option GoStr) (st : SfrState) (kw : GoStr) {v : GoStr}
    (hkw_ne : kw ≠ []) (hkw_ns : NS kw) (hkw_hash : ∀ c, kw.head? = some c → c ≠ '#')
    (hv : normalVal v) :
    sfrLine home st ("    ".data ++ (kw ++ ' ' :: v)) =
      sfrKV home st (goToLower kw) v := by
  obtain ⟨ws, hws, rfl⟩ := hv
  have hline : (kw ++ ' ' :: joinWords ws) = joinWords (kw :: ws) := by
    rw [joinWords_cons]
    cases hws' : ws with
    | nil => exact absurd hws' hws.1
    | cons w0 ws' => simp [jtail]
  rw [hline, sfrLine_directive home st (by decide) hkw_ne hkw_ns hkw_hash hws]

theorem sfrLine_hostname (home : Option GoStr) (S : List Server) (c : Server) {v : GoStr}
    (hv : normalVal v) :
    sfrLine home ⟨S, some c⟩ ("    HostName ".data ++ v) =
      ⟨S, some { c with host := v }⟩ := by
  have h1 : ("    HostName ".data : GoStr) ++ v =
      "    ".data ++ ("HostName".data ++ ' ' :: v) := rfl
  rw [h1, sfrLine_field home _ "HostName".data (by decide) (NS_of_all (by decide))
    (head_ne_hash "HostName".data 'H' rfl (by decide)) hv]
  rw [show goToLower "HostName".data = "hostname".data from by decide]
  unfold sfrKV
  rw [if_neg (by decide), if_pos rfl]
  rfl

theorem sfrLine_user (home : Option GoStr) (S : List Server) (c : Server) {v : GoStr}
    (hv : normalVal v) :
    sfrLine home ⟨S, some c⟩ ("    User ".data ++ v) =
      ⟨S, some { c with user := v }⟩ := by
  have h1 : ("    User ".data : GoStr) ++ v =
      "    ".data ++ ("User".data ++ ' ' :: v) := rfl
  rw [h1, sfrLine_field home _ "User".data (by decide) (NS_of_all (by decide))
    (head_ne_hash "User".data 'U' rfl (by decide)) hv]
  rw [show goToLower "User".data = "user".data from by decide]
  unfold sfrKV
  rw [if_neg (by decide), if_neg (by decide), if_pos rfl]
  rfl

theorem sfrLine_port (home : Option GoStr) (S : List Server) (c : Server) {p : Int}
    (h1 : -(2 ^ 63) ≤ p) (h2 : p ≤ 2 ^ 63 - 1) :
    sfrLine home ⟨S, some c⟩ ("    Port ".data ++ goIntToStr p) =
      ⟨S, some { c with port := p }⟩ := by
  have hv : normalVal (goIntToStr p) := by
    refine ⟨[goIntToStr p], ⟨by simp, ?_⟩, by simp [joinWords]⟩
    intro w hw
    simp only [List.mem_singleton] at hw
    subst hw
    exact goIntToStr_wordOK p
  have hline : ("    Port ".data : GoStr) ++ goIntToStr p =
      "    ".data ++ ("Port".data ++ ' ' :: goIntToStr p) := rfl
  rw [hline, sfrLine_field home _ "Port".data (by decide) (NS_of_all (by decide))
    (head_ne_hash "Port".data 'P' rfl (by decide)) hv]
  rw [show goToLower "Port".data = "port".data from by decide]
  unfold sfrKV
  rw [if_neg (by decide), if_neg (by decide), if_neg (by decide), if_pos rfl]
  rw [goAtoi_goIntToStr h1 h2]
  rfl

theorem sfrLine_key (home : Option GoStr) (S : List Server) (c : Server) {v : GoStr}
    (hv : normalVal v) :
    sfrLine home ⟨S, some c⟩ ("    IdentityFile ".data ++ v) =
      ⟨S, some { c with key := expandTilde home v }⟩ := by
  have hline : ("    IdentityFile ".data : GoStr) ++ v =
      "    ".data ++ ("IdentityFile".data ++ ' ' :: v) := rfl
  rw [hline, sfrLine_field home _ "IdentityFile".data (by decide) (NS_of_all (by decide))
    (head_ne_hash "IdentityFile".data 'I' rfl (by decide)) hv]
  rw [show goToLower "IdentityFile".data = "identityfile".data from by decide]
  unfold sfrKV
  rw [if_neg (by decide), if_neg (by decide), if_neg (by decide), if_neg (by decide),
    if_pos rfl]
  rfl

/-! ### Folding the parser over one written block -/

theorem sfr_segH (home : Option GoStr) (S : List Server) (c : Server) {h : GoStr}
    (hn : h = [] ∨ normalVal h) (hc : c.host = []) :
    List.foldl (sfrLine home) ⟨S, some c⟩
      (if h ≠ [] then ["    HostName ".data ++ h] else []) =
      ⟨S, some { c with host := h }⟩ := by
  by_cases hne : h = []
  · subst hne
    rw [if_neg (by simp)]
    simp only [List.foldl_nil]
    conv_rhs => rw [← hc]
  · rw [if_pos hne]
    simp only [List.foldl_cons, List.foldl_nil]
    rw [sfrLine_hostname home S c (hn.resolve_left hne)]

theorem sfr_segU (home : Option GoStr) (S : List Server) (c : Server) {u : GoStr}
    (hn : u = [] ∨ normalVal u) (hc : c.user = []) :
    List.foldl (sfrLine home) ⟨S, some c⟩
      (if u ≠ [] then ["    User ".data ++ u] else []) =
      ⟨S, some { c with user := u }⟩ := by
  by_cases hne : u = []
  · subst hne
    rw [if_neg (by simp)]
    simp only [List.foldl_nil]
    conv_rhs => rw [← hc]
  · rw [if_pos hne]
    simp only [List.foldl_cons, List.foldl_nil]
    rw [sfrLine_user home S c (hn.resolve_left hne)]

theorem sfr_segP (home : Option GoStr) (S : List Server) (c : Server) {p : Int}
    (hr : -(2 ^ 63) ≤ p ∧ p ≤ 2 ^ 63 - 1) (hp0 : p ≠ 0) (hc : c.port = DefaultPort) :
    List.foldl (sfrLine home) ⟨S, some c⟩
      (if p ≠ 0 ∧ p ≠ DefaultPort then ["    Port ".data ++ goIntToStr p] else []) =
      ⟨S, some { c with port := p }⟩ := by
  by_cases hp : p ≠ 0 ∧ p ≠ DefaultPort
  · rw [if_pos hp]
    simp only [List.foldl_cons, List.foldl_nil]
    rw [sfrLine_port home S c hr.1 hr.2]
  · rw [if_neg hp]
    simp only [List.foldl_nil]
    push_neg at hp
    have hpd : p = DefaultPort := hp hp0
    subst hpd
    conv_rhs => rw [← hc]

theorem sfr_segK (home : Option GoStr) (S : List Server) (c : Server) {k : GoStr}
    (hn : k = [] ∨ normalVal k) (hfix : expandTilde home k = k) (hc : c.key = []) :
    List.foldl (sfrLine home) ⟨S, some c⟩
      (if k ≠ [] then ["    IdentityFile ".data ++ k] else []) =
      ⟨S, some { c with key := k }⟩ := by
  by_cases hne : k = []
  · subst hne
    rw [if_neg (by simp)]
    simp only [List.foldl_nil]
    conv_rhs => rw [← hc]
  · rw [if_pos hne]
    simp only [List.foldl_cons, List.foldl_nil]
    rw [sfrLine_key home S c (hn.resolve_left hne), hfix]

theorem sfrServerLines_mk (a h u : GoStr) (p : Int) (k : GoStr) :
    sfrServerLines (mkSfr a h u p k) =
      ([ManagedByComment, "Host ".data ++ a] ++
       (if h ≠ [] then ["    HostName ".data ++ h] else []) ++
       (if u ≠ [] then ["    User ".data ++ u] else []) ++
       (if p ≠ 0 ∧ p ≠ DefaultPort then ["    Port ".data ++ goIntToStr p] else []) ++
       (if k ≠ [] then ["    IdentityFile ".data ++ k] else [])) := rfl

/-- Folding the parser over the block the writer emits for a wellformed
record recovers exactly that record, flushing any record in progress. -/
theorem sfr_block (home : Option GoStr) (st : SfrState) {s : Server}
    (hwf : sfrWF home s) (hp0 : s.port ≠ 0) :
    List.foldl (sfrLine home) st (sfrServerLines s) =
      ⟨st.servers ++ optList st.current, some s⟩ := by
  obtain ⟨w1, w2, w3, w4, w5, w6, w7⟩ := hwf
  rw [w7] at hp0 ⊢
  rw [show (mkSfr s.aliasName s.host s.user s.port s.key).port = s.port from rfl] at hp0
  rw [sfrServerLines_mk]
  rw [List.foldl_append, List.foldl_append, List.foldl_append, List.foldl_append]
  rw [show ([ManagedByComment, "Host ".data ++ s.aliasName] : List GoStr) =
    [ManagedByComment] ++ ["Host ".data ++ s.aliasName] from rfl]
  rw [List.foldl_append]
  simp only [List.foldl_cons, List.foldl_nil]
  rw [sfrLine_comment home st, sfrLine_host home st w1]
  rw [sfr_segH home _ _ w2 rfl]
  rw [sfr_segU home _ _ w3 rfl]
  rw [sfr_segP home _ _ w4 hp0 rfl]
  rw [sfr_segK home _ _ w5 w6 rfl]
  rfl

/-! ### From the writer's byte output back to its lines -/

/-- A line the scanner will hand back unchanged: no embedded newline and
no trailing carriage return. -/
def cleanLine (l : GoStr) : Prop := '\n' ∉ l ∧ dropCR l = l

/-- The written lines of consecutive blocks, with the empty separator line
between blocks, as the scanner recovers them. -/
def interBlank : List (List GoStr) → List GoStr
  | [] => []
  | [b] => b
  | b :: bs => b ++ [] :: interBlank bs

theorem foldl_scanStep_noNl {l : GoStr} (hl : '\n' ∉ l) :
    ∀ st : List GoStr × GoStr, l.foldl scanStep st = (st.1, st.2 ++ l) := by
  induction l with
  | nil => intro st; simp
  | cons c cs ih =>
    intro st
    have hc : c ≠ '\n' := fun h => hl (by simp [h])
    have hcs : '\n' ∉ cs := fun h => hl (by simp [h])
    simp only [List.foldl_cons, scanStep, if_neg hc]
    rw [ih hcs]
    simp

theorem foldl_scanStep_unlines {ls : List GoStr} (h : ∀ l ∈ ls, cleanLine l) :
    ∀ (t : GoStr) (done : List GoStr),
      (unlines ls ++ t).foldl scanStep (done, []) =
        t.foldl scanStep (done ++ ls, []) := by
  induction ls with
  | nil => intro t done; simp [unlines]
  | cons l ls' ih =>
    intro t done
    obtain ⟨hnl, hcr⟩ := h l (by simp)
    have hrest : ∀ x ∈ ls', cleanLine x := fun x hx => h x (by simp [hx])
    have hshape : unlines (l :: ls') ++ t = l ++ '\n' :: (unlines ls' ++ t) := by
      simp [unlines]
    rw [hshape, List.foldl_append, foldl_scanStep_noNl hnl]
    simp only [List.nil_append, List.foldl_cons]
    rw [show scanStep (done, l) '\n' = (done ++ [dropCR l], []) from by simp [scanStep]]
    rw [hcr, ih hrest t (done ++ [l])]
    simp

/-- Scanning the writer's joined blocks recovers the lines with one blank
separator line between blocks. -/
theorem foldl_scanStep_unlines_nil {ls : List GoStr} (h : ∀ l ∈ ls, cleanLine l)
    (done : List GoStr) :
    (unlines ls).foldl scanStep (done, []) = (done ++ ls, []) := by
  have := foldl_scanStep_unlines h [] done
  simpa using this

/-- Scanning the writer's joined blocks recovers the lines with one blank
separator line between blocks. -/
theorem goScanLines_joinBlocks {blocks : List (List GoStr)}
    (hcl : ∀ b ∈ blocks, ∀ l ∈ b, cleanLine l) : ∀ done : List GoStr,
    (let st := (joinBlocks (blocks.map unlines)).foldl scanStep (done, []);
     if st.2 = [] then st.1 else st.1 ++ [dropCR st.2]) = done ++ interBlank blocks := by
  induction blocks with
  | nil => intro done; simp [joinBlocks, interBlank]
  | cons b bs ih =>
    intro done
    cases bs with
    | nil =>
      simp only [List.map_cons, List.map_nil, joinBlocks, interBlank]
      rw [foldl_scanStep_unlines_nil (hcl b (by simp)) done]
      simp
    | cons b2 bs2 =>
      have hshape : joinBlocks ((b :: b2 :: bs2).map unlines) =
          unlines b ++ '\n' :: joinBlocks ((b2 :: bs2).map unlines) := by
        simp [joinBlocks]
      simp only [hshape]
      rw [List.foldl_append, foldl_scanStep_unlines_nil (hcl b (by simp)) done]
      simp only [List.foldl_cons]
      rw [show scanStep (done ++ b, []) '\n' = (done ++ b ++ [dropCR []], []) from by
        simp [scanStep]]
      rw [show dropCR ([] : GoStr) = [] from rfl]
      have := ih (fun x hx => hcl x (by simp [hx])) (done ++ b ++ [[]])
      simp only at this
      rw [this]
      simp only [interBlank]
      simp

/-- `'\r'`-free tail: a string whose last character is not whitespace is
kept by `dropCR`. -/
theorem dropCR_of_last {l : GoStr}
    (h : ∀ d, l.getLast? = some d → goIsSpace d = false) : dropCR l = l := by
  unfold dropCR
  cases hr : l.reverse with
  | nil => rw [if_neg (by simp [goHasSuff, hr, List.isPrefixOf])]
  | cons d rest =>
    have hd : l.getLast? = some d := by rw [← List.head?_reverse, hr]; rfl
    have := h d hd
    rw [if_neg]
    rw [goHasSuff, hr]
    simp only [List.reverse_cons, List.reverse_nil, List.nil_append, List.isPrefixOf,
      Bool.and_eq_true, beq_iff_eq]
    intro hcon
    obtain ⟨rfl, -⟩ := hcon
    simp [goIsSpace] at this

/-- Every character of a join is a word character or the separating
space. -/
theorem mem_joinWords {ws : List GoStr} {c : Char} (h : c ∈ joinWords ws) :
    c = ' ' ∨ ∃ w ∈ ws, c ∈ w := by
  induction ws with
  | nil => simp [joinWords] at h
  | cons w ws' ih =>
    rw [joinWords_cons] at h
    rcases List.mem_append.mp h with h | h
    · exact Or.inr ⟨w, by simp, h⟩
    · cases ws' with
      | nil => simp [jtail] at h
      | cons x xs =>
        simp only [jtail, List.mem_cons] at h
        rcases h with rfl | h
        · exact Or.inl rfl
        · rcases ih h with h | ⟨w', hw', hc⟩
          · exact Or.inl h
          · exact Or.inr ⟨w', by simp [hw'], hc⟩

/-- A normal value contains no newline and no trailing carriage return. -/
theorem normalVal_clean {v : GoStr} (hv : normalVal v) :
    '\n' ∉ v ∧ (∀ d, v.getLast? = some d → goIsSpace d = false) := by
  obtain ⟨ws, hws, rfl⟩ := hv
  constructor
  · intro hmem
    rcases mem_joinWords hmem with h | ⟨w, hw, hc⟩
    · exact absurd h (by decide)
    · have := (hws.2 w hw).2 '\n' hc
      simp [goIsSpace] at this
  · exact joinWords_last_nonspace hws

/-- A writer line `prefix ++ value` with a newline-free prefix and a
normal value is clean. -/
theorem clean_of_parts {pre v : GoStr} (hp : '\n' ∉ pre) (hv : normalVal v) :
    cleanLine (pre ++ v) := by
  obtain ⟨hnl, hlast⟩ := normalVal_clean hv
  constructor
  · intro h
    rcases List.mem_append.mp h with h | h
    · exact hp h
    · exact hnl h
  · refine dropCR_of_last ?_
    intro d hd
    rw [List.getLast?_append] at hd
    have hvne : v ≠ [] := by
      obtain ⟨ws, hws, rfl⟩ := hv
      exact joinWords_ne_nil hws
    obtain ⟨e, he⟩ : ∃ e, v.getLast? = some e := by
      cases hv' : v with
      | nil => exact absurd hv' hvne
      | cons a as => exact ⟨(a :: as).getLast (by simp), List.getLast?_eq_getLast _ _⟩
    rw [he] at hd
    simp only [Option.or_some, Option.some.injEq] at hd
    subst hd
    exact hlast e he

/-- All lines the writer emits for a wellformed record are clean. -/
theorem sfrServerLines_clean {home : Option GoStr} {s : Server} (hwf : sfrWF home s) :
    ∀ l ∈ sfrServerLines s, cleanLine l := by
  obtain ⟨w1, w2, w3, w4, w5, w6, w7⟩ := hwf
  intro l hl
  rw [w7, sfrServerLines_mk] at hl
  have hport : normalVal (goIntToStr s.port) := by
    refine ⟨[goIntToStr s.port], ⟨by simp, ?_⟩, by simp [joinWords]⟩
    intro w hw
    simp only [List.mem_singleton] at hw
    subst hw
    exact goIntToStr_wordOK s.port
  simp only [List.append_assoc, List.mem_append] at hl
  rcases hl with hl | hl | hl | hl | hl
  · simp only [List.mem_cons, List.not_mem_nil, or_false] at hl
    rcases hl with rfl | rfl
    · exact ⟨by decide, by decide⟩
    · exact clean_of_parts (by decide) w1
  · split at hl
    · simp only [List.mem_singleton] at hl
      subst hl
      exact clean_of_parts (by decide) (w2.resolve_left (by next h => exact h))
    · simp at hl
  · split at hl
    · simp only [List.mem_singleton] at hl
      subst hl
      exact clean_of_parts (by decide) (w3.resolve_left (by next h => exact h))
    · simp at hl
  · split at hl
    · simp only [List.mem_singleton] at hl
      subst hl
      exact clean_of_parts (by decide) hport
    · simp at hl
  · split at hl
    · simp only [List.mem_singleton] at hl
      subst hl
      exact clean_of_parts (by decide) (w5.resolve_left (by next h => exact h))
    · simp at hl

/-- Folding the parser over all written blocks, blank separators included. -/
theorem sfr_blocks (home : Option GoStr) {servers : List Server}
    (hwf : ∀ s ∈ servers, sfrWF home s) (hp : ∀ s ∈ servers, s.port ≠ 0) :
    ∀ st : SfrState, servers ≠ [] →
    List.foldl (sfrLine home) st (interBlank (servers.map sfrServerLines)) =
      ⟨(st.servers ++ optList st.current) ++ servers.dropLast, servers.getLast?⟩ := by
  induction servers with
  | nil => intro st h; simp at h
  | cons s rest ih =>
    intro st _
    cases rest with
    | nil =>
      simp only [List.map_cons, List.map_nil, interBlank]
      rw [sfr_block home st (hwf s (by simp)) (hp s (by simp))]
      simp
    | cons r rs =>
      have hshape : interBlank ((s :: r :: rs).map sfrServerLines) =
          sfrServerLines s ++ [] :: interBlank ((r :: rs).map sfrServerLines) := by
        simp [interBlank]
      rw [hshape, List.foldl_append]
      rw [sfr_block home st (hwf s (by simp)) (hp s (by simp))]
      simp only [List.foldl_cons]
      rw [sfrLine_empty]
      rw [ih (fun x hx => hwf x (by simp [hx])) (fun x hx => hp x (by simp [hx])) _ (by simp)]
      simp only [optList]
      rw [List.getLast?_cons_cons]
      congr 1
      simp

/-- **C1 (counterexample)**: the round-trip claim fails as stated.  The
primary config file `"Host a\nPort 0\n"` parses to a record with port `0`;
the writer omits a `Port` line for port `0`, so re-parsing the written
file yields port `22` — the record lists differ. -/
theorem sfr_roundtrip_port0_cex :
    (parseSSHConfig none "Host a\nPort 0\n".data).map Server.port = [0] ∧
    (parseSSHConfig none
        (writeSSHConfig (parseSSHConfig none "Host a\nPort 0\n".data))).map Server.port = [22] ∧
    parseSSHConfig none (writeSSHConfig (parseSSHConfig none "Host a\nPort 0\n".data)) ≠
      parseSSHConfig none "Host a\nPort 0\n".data := by
  refine ⟨by decide, by decide, by decide⟩

/-- **C1 (amended)**: for every primary config file in which no parsed
record has port `0` (and any sane home directory), parsing, serializing
with the writer, and parsing again yields the identical record list —
same order, and for each record the same alias, host, user, port, and
identity-file value — independent of cosmetic whitespace in the original
file. -/
theorem sfr_write_parse_roundtrip {home : Option GoStr} (hh : homeOK home)
    (content : GoStr)
    (hp : ∀ s ∈ parseSSHConfig home content, s.port ≠ 0) :
    parseSSHConfig home (writeSSHConfig (parseSSHConfig home content)) =
      parseSSHConfig home content := by
  have hwf : ∀ s ∈ parseSSHConfig home content, sfrWF home s := sfrParse_wf hh _
  generalize hsv : parseSSHConfig home content = servers at hwf hp
  have hclean : ∀ b ∈ servers.map sfrServerLines, ∀ l ∈ b, cleanLine l := by
    intro b hb l hl
    obtain ⟨s, hs, rfl⟩ := List.mem_map.mp hb
    exact sfrServerLines_clean (hwf s hs) l hl
  have hscan : goScanLines (writeSSHConfig servers) =
      interBlank (servers.map sfrServerLines) := by
    have hmm : writeSSHConfig servers =
        joinBlocks ((servers.map sfrServerLines).map unlines) := by
      unfold writeSSHConfig
      rw [List.map_map]
      rfl
    have := goScanLines_joinBlocks hclean []
    rw [hmm]
    simpa [goScanLines] using this
  unfold parseSSHConfig
  rw [hscan]
  cases hsv2 : servers with
  | nil => simp [sfrParseLines, interBlank, optList]
  | cons s rest =>
    unfold sfrParseLines
    rw [← hsv2]
    rw [sfr_blocks home hwf hp {} (by rw [hsv2]; simp)]
    have hne : servers ≠ [] := by rw [hsv2]; simp
    obtain ⟨g, hg⟩ : ∃ g, servers.getLast? = some g := by
      rw [hsv2]
      exact ⟨(s :: rest).getLast (by simp), List.getLast?_eq_getLast _ _⟩
    simp only [hg, optList]
    have := List.dropLast_concat_getLast hne
    rw [List.getLast?_eq_getLast _ hne] at hg
    cases hg
    simpa using this

/-- **C1 (witness)**: the amended round trip at a concrete file with
whitespace noise and a non-default port. -/
theorem sfr_write_parse_roundtrip_witness :
    parseSSHConfig none
        (writeSSHConfig (parseSSHConfig none
          "Host web1\n   HostName  10.0.0.1\n\tUser ubuntu\nPort 2222\nIdentityFile ~/k\n".data)) =
      parseSSHConfig none
        "Host web1\n   HostName  10.0.0.1\n\tUser ubuntu\nPort 2222\nIdentityFile ~/k\n".data :=
  sfr_write_parse_roundtrip (by trivial) _ (by decide)

/-! ## The grouped parser `SSHConfigParser` (package `file`)

`parseFile` processes one discovered config file: it records `Include`
lines verbatim, starts a record at each `Host` line (tagging it with the
file's group), and fills `hostname`, `user`, `port` and `identityfile`
into the single corresponding `domain.Server` fields. -/

/-- `SSHConfigParser.parseKeyValue`: lower-cased key and
whitespace-collapsed value; `("", "")` for lines with fewer than two
fields. -/
def grpParseKeyValue (line : GoStr) : GoStr × GoStr :=
  match goFields line with
  | [] => ([], [])
  | [_] => ([], [])
  | k :: rest => (goToLower k, joinWords rest)

/-- `SSHConfigParser.parsePort`: integer value, or the default port when
the value is not numeric. -/
def grpParsePort (value : GoStr) : Int :=
  match goAtoi value with
  | some p => p
  | none => DefaultPort

/-- `SSHConfigParser.expandPath`: same `~/` expansion as the flat parser. -/
def grpExpandPath (home : Option GoStr) (p : GoStr) : GoStr := expandTilde home p

/-- State of `parseFile`: finished records, verbatim include lines, and
the record being accumulated. -/
structure GrpState where
  servers : List Server := []
  includes : List GoStr := []
  current : Option Server := none
deriving DecidableEq, Repr

/-- The key dispatch of `parseFile` (the `include` check and the
`switch key`); `rawLine` is kept because include lines are stored
verbatim. -/
def grpKV (home : Option GoStr) (g : GoStr) (st : GrpState) (rawLine key value : GoStr) :
    GrpState :=
  if key = [] then st
  else if key = "include".data then { st with includes := st.includes ++ [rawLine] }
  else if key = "host".data then
    { st with servers := st.servers ++ optList st.current,
              current := some { aliasName := value, port := DefaultPort, group := g } }
  else if key = "hostname".data then
    { st with current := st.current.map fun c => { c with host := value } }
  else if key = "user".data then
    { st with current := st.current.map fun c => { c with user := value } }
  else if key = "port".data then
    { st with current := st.current.map fun c => { c with port := grpParsePort value } }
  else if key = "identityfile".data then
    { st with current := st.current.map fun c => { c with key := grpExpandPath home value } }
  else st

/-- One iteration of the scanner loop of `parseFile`. -/
def grpLine (home : Option GoStr) (g : GoStr) (st : GrpState) (rawLine : GoStr) : GrpState :=
  if goTrimSpace rawLine = [] then st
  else if goHasPref "#".data (goTrimSpace rawLine) then st
  else grpKV home g st rawLine (grpParseKeyValue (goTrimSpace rawLine)).1
    (grpParseKeyValue (goTrimSpace rawLine)).2

/-- `SSHConfigParser.parseFile` over the lines of one file with group
`g`: the records and the verbatim include lines. -/
def grpParseFileLines (home : Option GoStr) (g : GoStr) (lines : List GoStr) :
    List Server × List GoStr :=
  let st := lines.foldl (grpLine home g) {}
  (st.servers ++ optList st.current, st.includes)

/-- `parseFile` applied to a file's byte content. -/
def grpParseFile (home : Option GoStr) (g : GoStr) (content : GoStr) :
    List Server × List GoStr :=
  grpParseFileLines home g (goScanLines content)

/-! ## The `ssh_config_file` repository's `mapKVToServer`

In the `ssh_config_file` package the per-host nodes carry key/value
pairs, and `mapKVToServer` folds them into a `domain.Server` that has an
`IdentityFiles` slice: each `identityfile` node is appended. -/

/-- A `ssh_config.KV` node. -/
structure KV where
  key : GoStr
  value : GoStr
deriving DecidableEq, Repr

/-- `Repository.mapKVToServer` (`ssh_config_file/parser.go` 281-295). -/
def mapKVToServer (s : Server) (kv : KV) : Server :=
  if goToLower kv.key = "hostname".data then { s with host := kv.value }
  else if goToLower kv.key = "user".data then { s with user := kv.value }
  else if goToLower kv.key = "port".data then
    match goAtoi kv.value with
    | some p => { s with port := p }
    | none => s
  else if goToLower kv.key = "identityfile".data then
    { s with identityFiles := s.identityFiles ++ [kv.value] }
  else s

/-! ### C5: multiple `IdentityFile` directives -/

theorem grpLine_directive (home : Option GoStr) (g : GoStr) (st : GrpState)
    {sp kw : GoStr} {ws : List GoStr} (hsp : ∀ c ∈ sp, goIsSpace c = true)
    (hkw_ne : kw ≠ []) (hkw_ns : NS kw)
    (hkw_hash : ∀ c, kw.head? = some c → c ≠ '#')
    (hws : wordsOK ws) :
    grpLine home g st (sp ++ joinWords (kw :: ws)) =
      grpKV home g st (sp ++ joinWords (kw :: ws)) (goToLower kw) (joinWords ws) := by
  have hkws : wordsOK (kw :: ws) := by
    refine ⟨by simp, ?_⟩
    intro w hw
    simp only [List.mem_cons] at hw
    rcases hw with rfl | hw
    · exact ⟨hkw_ne, hkw_ns⟩
    · exact hws.2 w hw
  obtain ⟨c0, t0, rfl⟩ : ∃ c0 t0, kw = c0 :: t0 := by
    cases kw with
    | nil => simp at hkw_ne
    | cons c0 t0 => exact ⟨c0, t0, rfl⟩
  have htrim : goTrimSpace (sp ++ joinWords ((c0 :: t0) :: ws)) =
      joinWords ((c0 :: t0) :: ws) := goTrimSpace_join hsp hkws
  unfold grpLine
  rw [htrim]
  rw [if_neg (joinWords_ne_nil hkws)]
  have hpref : goHasPref "#".data (joinWords ((c0 :: t0) :: ws)) = false := by
    rw [joinWords_head]
    have hc0 := hkw_hash c0 (by simp)
    rw [show ("#".data : GoStr) = ['#'] from rfl, goHasPref_single]
    simp only [beq_eq_false_iff_ne, ne_eq]
    intro h
    exact absurd h.symm hc0
  rw [if_neg (by rw [hpref]; simp)]
  have hkv : grpParseKeyValue (joinWords ((c0 :: t0) :: ws)) =
      (goToLower (c0 :: t0), joinWords ws) := by
    unfold grpParseKeyValue
    rw [goFields_joinWords hkws]
    obtain ⟨w0, ws', rfl⟩ : ∃ w0 ws', ws = w0 :: ws' := by
      cases ws with
      | nil => exact absurd rfl hws.1
      | cons w0 ws' => exact ⟨w0, ws', rfl⟩
    rfl
  rw [hkv]

theorem grpLine_identityfile (home : Option GoStr) (g : GoStr) (S : List Server)
    (inc : List GoStr) (c : Server) {v : GoStr} (hv : normalVal v) :
    grpLine home g ⟨S, inc, some c⟩ ("IdentityFile ".data ++ v) =
      ⟨S, inc, some { c with key := grpExpandPath home v }⟩ := by
  obtain ⟨ws, hws, rfl⟩ := hv
  have hline : ("IdentityFile ".data : GoStr) ++ joinWords ws =
      [] ++ joinWords ("IdentityFile".data :: ws) := by
    rw [joinWords_cons]
    cases hws' : ws with
    | nil => exact absurd hws' hws.1
    | cons w0 ws' => simp [jtail]
  rw [hline, grpLine_directive home g _ (by simp) (by decide) (NS_of_all (by decide))
    (head_ne_hash "IdentityFile".data 'I' rfl (by decide)) hws]
  rw [show goToLower "IdentityFile".data = "identityfile".data from by decide]
  unfold grpKV
  rw [if_neg (by decide), if_neg (by decide), if_neg (by decide), if_neg (by decide),
    if_neg (by decide), if_neg (by decide), if_pos rfl]
  rfl

theorem grp_identityfile_lastwins (home : Option GoStr) (g : GoStr) (S : List Server)
    (inc : List GoStr) (c : Server) {vs : List GoStr} {vlast : GoStr}
    (hnorm : ∀ v ∈ vs, normalVal v) (hlast : vs.getLast? = some vlast) :
    List.foldl (grpLine home g) ⟨S, inc, some c⟩
      (vs.map fun v => "IdentityFile ".data ++ v) =
      ⟨S, inc, some { c with key := grpExpandPath home vlast }⟩ := by
  induction vs generalizing c with
  | nil => simp at hlast
  | cons v rest ih =>
    cases rest with
    | nil =>
      simp only [List.getLast?_singleton, Option.some.injEq] at hlast
      subst hlast
      simp only [List.map_cons, List.map_nil, List.foldl_cons, List.foldl_nil]
      rw [grpLine_identityfile home g S inc c (hnorm v (by simp))]
    | cons v2 rest2 =>
      rw [List.getLast?_cons_cons] at hlast
      simp only [List.map_cons, List.foldl_cons]
      rw [grpLine_identityfile home g S inc c (hnorm v (by simp))]
      have := ih (c := { c with key := grpExpandPath home v })
        (fun x hx => hnorm x (List.mem_cons_of_mem _ hx)) hlast
      simpa using this

theorem mapKV_identityFiles_step (s : Server) (kv : KV) :
    (mapKVToServer s kv).identityFiles =
      s.identityFiles ++ (if goToLower kv.key = "identityfile".data then [kv.value] else []) := by
  unfold mapKVToServer
  split
  · next h => rw [if_neg (by rw [h]; decide)]; simp
  · split
    · next h => rw [if_neg (by rw [h]; decide)]; simp
    · split
      · next h =>
        rw [if_neg (by rw [h]; decide)]
        cases goAtoi kv.value <;> simp
      · split
        · simp
        · simp

theorem mapKV_identityFiles_accumulate (kvs : List KV) (s0 : Server) :
    (kvs.foldl mapKVToServer s0).identityFiles =
      s0.identityFiles ++ kvs.filterMap
        (fun kv => if goToLower kv.key = "identityfile".data then some kv.value else none) := by
  induction kvs generalizing s0 with
  | nil => simp
  | cons kv rest ih =>
    rw [List.foldl_cons, ih (mapKVToServer s0 kv), mapKV_identityFiles_step,
      List.filterMap_cons]
    by_cases h : goToLower kv.key = "identityfile".data
    · rw [if_pos h, if_pos h]
      simp
    · rw [if_neg h, if_neg h]
      simp

/-- **C5 (counterexample)**: the grouped-config parser does not accumulate
`IdentityFile` directives: parsing a Host block with `IdentityFile f1`
then `IdentityFile f2` yields a record whose single `Key` field holds only
`f2` — `f1` is overwritten, and no identity-file list is populated. -/
theorem grp_identityfile_overwrite_cex :
    grpParseFile none [] "Host a\nIdentityFile f1\nIdentityFile f2\n".data =
      ([{ aliasName := ['a'], port := 22, key := ['f', '2'] }], []) ∧
    (grpParseFile none [] "Host a\nIdentityFile f1\nIdentityFile f2\n".data).1.map
      Server.identityFiles = [[]] := by
  refine ⟨by decide, by decide⟩

/-- **C5 (amended)**: for a Host block with multiple `IdentityFile`
directives, the grouped-config parser (`SSHConfigParser.parseFile`) keeps
only the LAST directive: each one overwrites the record's single `Key`
field (after `~` expansion).  The `ssh_config_file` repository's
`mapKVToServer`, by contrast, appends every `identityfile` node to the
record's `IdentityFiles` list in directive order. -/
theorem identityfile_last_wins_and_repo_accumulates (home : Option GoStr) (g : GoStr)
    (S : List Server) (inc : List GoStr) (c : Server) {vs : List GoStr} {vlast : GoStr}
    (hnorm : ∀ v ∈ vs, normalVal v) (hlast : vs.getLast? = some vlast)
    (kvs : List KV) (s0 : Server) :
    List.foldl (grpLine home g) ⟨S, inc, some c⟩
        (vs.map fun v => "IdentityFile ".data ++ v) =
      ⟨S, inc, some { c with key := grpExpandPath home vlast }⟩ ∧
    (kvs.foldl mapKVToServer s0).identityFiles =
      s0.identityFiles ++ kvs.filterMap
        (fun kv => if goToLower kv.key = "identityfile".data then some kv.value else none) :=
  ⟨grp_identityfile_lastwins home g S inc c hnorm hlast,
   mapKV_identityFiles_accumulate kvs s0⟩

/-- **C5 (witness)**: the amended statement at a concrete two-directive
block and a concrete node list. -/
theorem identityfile_last_wins_witness :
    List.foldl (grpLine none [] ) ⟨[], [], some { aliasName := ['a'], port := 22 }⟩
        ([['f', '1'], ['f', '2']].map fun v => "IdentityFile ".data ++ v) =
      ⟨[], [],
        some { aliasName := ['a'], port := 22, key := grpExpandPath none ['f', '2'] }⟩ ∧
    ([⟨"IdentityFile".data, ['x']⟩, ⟨"IdentityFile".data, ['y']⟩].foldl
        mapKVToServer { aliasName := ['a'] }).identityFiles =
      ({ aliasName := ['a'] } : Server).identityFiles ++
        ([⟨"IdentityFile".data, ['x']⟩, ⟨"IdentityFile".data, ['y']⟩] : List KV).filterMap
          (fun kv => if goToLower kv.key = "identityfile".data then some kv.value else none) :=
  identityfile_last_wins_and_repo_accumulates none [] [] []
    { aliasName := ['a'], port := 22 }
    (by intro v hv; simp only [List.mem_cons, List.not_mem_nil, or_false] at hv
        rcases hv with rfl | rfl
        · exact ⟨[['f', '1']], ⟨by simp, by
            intro w hw
            simp only [List.mem_singleton] at hw
            subst hw
            exact ⟨by simp, NS_of_all (by decide)⟩⟩, rfl⟩
        · exact ⟨[['f', '2']], ⟨by simp, by
            intro w hw
            simp only [List.mem_singleton] at hw
            subst hw
            exact ⟨by simp, NS_of_all (by decide)⟩⟩, rfl⟩)
    (by decide) _ _

/-! ## The metadata sidecar (`server_file_repo.go`)

`ServerMetadata` is serialized with `encoding/json`; every field carries
`omitempty`, so empty values are dropped from the entry.  `updateMetadata`
builds the entry stored for an alias after an add or update. -/

/-- `ServerMetadata` (`server_file_repo.go` 37-42); timestamps are the
stored RFC 3339 strings. -/
structure ServerMetadata where
  tags : List GoStr := []
  lastSeen : GoStr := []
  pinnedAt : GoStr := []
  sshCount : Int := 0
deriving DecidableEq, Repr

/-- The keys `encoding/json` emits for a `ServerMetadata` entry under
`omitempty`: a nil/empty slice, an empty string, and a zero integer are
omitted; keys appear in struct order. -/
def metadataKeys (m : ServerMetadata) : List GoStr :=
  (if m.tags ≠ [] then ["tags".data] else []) ++
  (if m.lastSeen ≠ [] then ["last_seen".data] else []) ++
  (if m.pinnedAt ≠ [] then ["pinned_at".data] else []) ++
  (if m.sshCount ≠ 0 then ["ssh_count".data] else [])

/-- `serverRepo.updateMetadata` (`server_file_repo.go` 337-356): the entry
stored for `server.Alias`: the tags and the RFC 3339 rendering of
`LastSeen` are always stored (even for the zero time); `PinnedAt` only
when it is non-zero. -/
def updateMetadataEntry (server : Server) : ServerMetadata :=
  if server.pinnedAt.isZero = false then
    { tags := server.tags, lastSeen := server.lastSeen.formatRFC3339,
      pinnedAt := server.pinnedAt.formatRFC3339 }
  else
    { tags := server.tags, lastSeen := server.lastSeen.formatRFC3339 }

/-- A decoded metadata file: alias to entry. -/
abbrev MetaMap := List (GoStr × ServerMetadata)

/-- `metadata[alias] = entry`: overwrite an existing key or append. -/
def metaSet (m : MetaMap) (k : GoStr) (v : ServerMetadata) : MetaMap :=
  if (m.lookup k).isSome then m.map (fun e => if e.1 = k then (k, v) else e)
  else m ++ [(k, v)]

/-- The map-level effect of `updateMetadata` for a server. -/
def updateMetadataMap (m : MetaMap) (server : Server) : MetaMap :=
  metaSet m server.aliasName (updateMetadataEntry server)

/-- `removeFromMetadata` / `metadataManager.deleteServer`. -/
def removeFromMetadataMap (m : MetaMap) (k : GoStr) : MetaMap :=
  m.filter (fun e => ¬ e.1 = k)

theorem formatRFC3339_ne_nil (t : GoTime) : t.formatRFC3339 ≠ [] := by
  unfold GoTime.formatRFC3339
  simp

/-- **C8 (counterexample)**: after an add or update of a never-used server
(`LastSeen` is the zero time), the serialized entry DOES contain a
`last_seen` key: `updateMetadata` always formats `LastSeen`, and the zero
time renders as the non-empty sentinel `0001-01-01T00:00:00Z`, which
`omitempty` does not drop. -/
theorem metadata_lastseen_sentinel_cex :
    (updateMetadataEntry { aliasName := "web1".data }).lastSeen =
      "0001-01-01T00:00:00Z".data ∧
    "last_seen".data ∈ metadataKeys (updateMetadataEntry { aliasName := "web1".data }) := by
  refine ⟨by decide, by decide⟩

/-- **C8 (amended)**: under the `omitempty` serialization, `tags` is
omitted exactly when empty, `pinned_at` exactly when the stored string is
empty (i.e. unpinned), `ssh_count` exactly when zero, and `last_seen`
exactly when the stored string is empty — but `updateMetadata` always
stores a non-empty `last_seen` string (the RFC 3339 rendering of
`LastSeen`, the `0001-01-01T00:00:00Z` sentinel for a never-used server),
so an entry written by add/update always contains a `last_seen` key. -/
theorem metadataKeys_omitempty (m : ServerMetadata) (server : Server) :
    ("tags".data ∈ metadataKeys m ↔ m.tags ≠ []) ∧
    ("last_seen".data ∈ metadataKeys m ↔ m.lastSeen ≠ []) ∧
    ("pinned_at".data ∈ metadataKeys m ↔ m.pinnedAt ≠ []) ∧
    ("ssh_count".data ∈ metadataKeys m ↔ m.sshCount ≠ 0) ∧
    (updateMetadataEntry server).lastSeen = server.lastSeen.formatRFC3339 ∧
    server.lastSeen.formatRFC3339 ≠ [] ∧
    "last_seen".data ∈ metadataKeys (updateMetadataEntry server) := by
  have hkeys : ∀ mm : ServerMetadata,
      ("tags".data ∈ metadataKeys mm ↔ mm.tags ≠ []) ∧
      ("last_seen".data ∈ metadataKeys mm ↔ mm.lastSeen ≠ []) ∧
      ("pinned_at".data ∈ metadataKeys mm ↔ mm.pinnedAt ≠ []) ∧
      ("ssh_count".data ∈ metadataKeys mm ↔ mm.sshCount ≠ 0) := by
    intro mm
    unfold metadataKeys
    by_cases h1 : mm.tags = [] <;> by_cases h2 : mm.lastSeen = [] <;>
      by_cases h3 : mm.pinnedAt = [] <;> by_cases h4 : mm.sshCount = 0 <;>
      simp [h1, h2, h3, h4]
  obtain ⟨k1, k2, k3, k4⟩ := hkeys m
  have hentry : (updateMetadataEntry server).lastSeen =
      server.lastSeen.formatRFC3339 := by
    unfold updateMetadataEntry
    split <;> rfl
  refine ⟨k1, k2, k3, k4, hentry, formatRFC3339_ne_nil _, ?_⟩
  have := (hkeys (updateMetadataEntry server)).2.1
  rw [this, hentry]
  exact formatRFC3339_ne_nil _

/-! ## The cloud descriptor loader (`aws_yaml_parser.go`)

The YAML decoding itself is external; the loader's validation and
conversion operate on the decoded document structure, modelled here
field for field. -/

/-- `AWSTagFilter`. -/
structure AWSTagFilter where
  name : GoStr := []
  values : List GoStr := []
deriving DecidableEq, Repr

/-- `AWSTargetSelection`. -/
structure AWSTargetSelection where
  method : GoStr := []
  instanceID : GoStr := []
  filters : List AWSTagFilter := []
deriving DecidableEq, Repr

/-- `AWSSSMConfig`. -/
structure AWSSSMConfig where
  document : GoStr := []
  localPort : Int := 0
  remotePort : Int := 0
  portNumber : Int := 0
deriving DecidableEq, Repr

/-- `AWSServerConfig` (the `Alias` field is called `aliasName` here). -/
structure AWSServerConfig where
  aliasName : GoStr := []
  profile : GoStr := []
  region : GoStr := []
  connectionType : GoStr := []
  targetSelection : AWSTargetSelection := {}
  ssm : AWSSSMConfig := {}
  tags : List GoStr := []
  description : GoStr := []
deriving DecidableEq, Repr

/-- `AWSGlobalConfig`. -/
structure AWSGlobalConfig where
  defaultRegion : GoStr := []
  defaultSSMDocument : GoStr := []
  timeout : Int := 0
  retryAttempts : Int := 0
deriving DecidableEq, Repr

/-- `AWSYamlConfig`: the decoded descriptor document. -/
structure AWSYamlConfig where
  awsServers : List AWSServerConfig := []
  awsConfig : AWSGlobalConfig := {}
deriving DecidableEq, Repr

/-- `strings.Join` with an arbitrary separator. -/
def joinWith (sep : GoStr) : List GoStr → GoStr
  | [] => []
  | [x] => x
  | x :: xs => x ++ sep ++ joinWith sep xs

/-- `AWSYamlParser.buildTagFilterString`: filters with empty value lists
are skipped; the rest are rendered `Name=<n>,Values=<v1,v2,...>` and
joined with single spaces. -/
def buildTagFilterString (filters : List AWSTagFilter) : GoStr :=
  joinWith [' '] (filters.filterMap fun f =>
    if f.values.length > 0 then
      some ("Name=".data ++ f.name ++ ",Values=".data ++ joinWith [','] f.values)
    else none)

/-- The record skeleton `convertToServer` builds before region and
target handling; `now` models `time.Now()`. -/
def awsBaseServer (now : GoTime) (config : AWSServerConfig) : Server :=
  { aliasName := config.aliasName, connectionType := connectionTypeAWS,
    source := "aws_yaml".data, awsProfile := config.profile,
    tags := config.tags, lastSeen := now }

/-- Region selection: entry region, else global default, else the fixed
fallback `us-east-1`. -/
def awsWithRegion (config : AWSServerConfig) (globalConfig : AWSGlobalConfig)
    (base : Server) : Server :=
  if config.region ≠ [] then { base with awsRegion := config.region }
  else if globalConfig.defaultRegion ≠ [] then
    { base with awsRegion := globalConfig.defaultRegion }
  else { base with awsRegion := "us-east-1".data }

/-- Target selection: the `switch config.TargetSelection.Method` of
`convertToServer`. -/
def awsTarget (config : AWSServerConfig) (s : Server) : Except GoStr Server :=
  if config.targetSelection.method = "instance_id".data then
    if config.targetSelection.instanceID = [] then
      .error "instance_id is required when method is 'instance_id'".data
    else .ok { s with host := config.targetSelection.instanceID }
  else if config.targetSelection.method = "ec2_tag_filter".data then
    if config.targetSelection.filters = [] then
      .error "filters are required when method is 'ec2_tag_filter'".data
    else
      .ok { s with ec2TagFilter := buildTagFilterString config.targetSelection.filters }
  else
    .error ("unsupported target selection method: '".data ++
      config.targetSelection.method ++ "'".data)

/-- SSM document selection: entry document, else global default, else the
fixed `AWS-StartSSHSession`. -/
def awsWithDoc (config : AWSServerConfig) (globalConfig : AWSGlobalConfig)
    (s : Server) : Server :=
  if config.ssm.document ≠ [] then { s with ssmDocument := config.ssm.document }
  else if globalConfig.defaultSSMDocument ≠ [] then
    { s with ssmDocument := globalConfig.defaultSSMDocument }
  else { s with ssmDocument := "AWS-StartSSHSession".data }

/-- SSM command synthesis for port forwarding, or the interactive-command
default. -/
def awsWithCommand (config : AWSServerConfig) (s : Server) : Server :=
  if config.ssm.localPort > 0 ∧ config.ssm.remotePort > 0 then
    { s with ssmCommand := "localPortNumber=".data ++ goIntToStr config.ssm.localPort ++
        ",remotePortNumber=".data ++ goIntToStr config.ssm.remotePort }
  else if config.ssm.portNumber > 0 then
    { s with ssmCommand := "portNumber=".data ++ goIntToStr config.ssm.portNumber }
  else if s.ssmDocument = "AWS-StartInteractiveCommand".data then
    { s with ssmCommand := "command=\"sudo su - ubuntu\"".data }
  else s

/-- `AWSYamlParser.convertToServer` (`aws_yaml_parser.go` 99-164),
decomposed into the stages above in source order. -/
def convertToServer (now : GoTime) (config : AWSServerConfig)
    (globalConfig : AWSGlobalConfig) : Except GoStr Server :=
  if config.aliasName = [] then .error "server alias is required".data
  else if config.profile = [] then
    .error ("AWS profile is required for server '".data ++ config.aliasName ++ "'".data)
  else
    (awsTarget config (awsWithRegion config globalConfig (awsBaseServer now config))).map
      fun srv => awsWithCommand config (awsWithDoc config globalConfig srv)

/-- The entry loop of `AWSYamlParser.Parse`: the first conversion error
aborts the whole parse with a wrapped error and no records. -/
def awsParseEntries (now : GoTime) (g : AWSGlobalConfig) :
    List AWSServerConfig → Except GoStr (List Server)
  | [] => .ok []
  | e :: rest =>
    match convertToServer now e g with
    | .error err =>
      .error ("failed to convert server '".data ++ e.aliasName ++ "': ".data ++ err)
    | .ok s =>
      match awsParseEntries now g rest with
      | .error err => .error err
      | .ok ss => .ok (s :: ss)

/-- `AWSYamlParser.Parse` on a decoded document. -/
def awsParse (now : GoTime) (cfg : AWSYamlConfig) : Except GoStr (List Server) :=
  awsParseEntries now cfg.awsConfig cfg.awsServers

/-- The malformedness conditions of claim C4 over a descriptor entry. -/
def awsMalformed (e : AWSServerConfig) : Prop :=
  e.aliasName = [] ∨ e.profile = [] ∨
  (e.targetSelection.method = "instance_id".data ∧ e.targetSelection.instanceID = []) ∨
  (e.targetSelection.method = "ec2_tag_filter".data ∧ e.targetSelection.filters = []) ∨
  (e.targetSelection.method ≠ "instance_id".data ∧
   e.targetSelection.method ≠ "ec2_tag_filter".data)

instance (e : AWSServerConfig) : Decidable (awsMalformed e) := by
  unfold awsMalformed
  infer_instance

theorem except_map_error_iff {a b g : Type} (f : a → b) (x : Except g a) :
    (∃ err, x.map f = .error err) ↔ ∃ err, x = .error err := by
  cases x <;> simp [Except.map]

theorem awsTarget_error_iff (e : AWSServerConfig) (s : Server) :
    (∃ err, awsTarget e s = .error err) ↔
      ((e.targetSelection.method = "instance_id".data ∧
        e.targetSelection.instanceID = []) ∨
       (e.targetSelection.method = "ec2_tag_filter".data ∧
        e.targetSelection.filters = []) ∨
       (e.targetSelection.method ≠ "instance_id".data ∧
        e.targetSelection.method ≠ "ec2_tag_filter".data)) := by
  unfold awsTarget
  by_cases h3 : e.targetSelection.method = "instance_id".data
  · rw [if_pos h3]
    by_cases h4 : e.targetSelection.instanceID = []
    · simp [h3, h4]
    · simp [h3, h4]
  · rw [if_neg h3]
    by_cases h5 : e.targetSelection.method = "ec2_tag_filter".data
    · rw [if_pos h5]
      by_cases h6 : e.targetSelection.filters = []
      · simp [h3, h5, h6]
      · simp [h3, h5, h6]
    · simp [h3, h5]

/-- `convertToServer` fails exactly on the malformed entries. -/
theorem convertToServer_error_iff (now : GoTime) (e : AWSServerConfig)
    (g : AWSGlobalConfig) :
    (∃ err, convertToServer now e g = .error err) ↔ awsMalformed e := by
  unfold convertToServer awsMalformed
  by_cases h1 : e.aliasName = []
  · simp [h1]
  · rw [if_neg h1]
    by_cases h2 : e.profile = []
    · simp [h1, h2]
    · rw [if_neg h2]
      simp only [h1, h2, false_or]
      rw [except_map_error_iff]
      exact awsTarget_error_iff e _

theorem awsParseEntries_error (now : GoTime) (g : AWSGlobalConfig)
    (entries : List AWSServerConfig) (h : ∃ e ∈ entries, awsMalformed e) :
    ∃ err, awsParseEntries now g entries = .error err := by
  induction entries with
  | nil => simp at h
  | cons x rest ih =>
    simp only [awsParseEntries]
    cases hc : convertToServer now x g with
    | error err => exact ⟨_, rfl⟩
    | ok s =>
      obtain ⟨e, he, hbad⟩ := h
      simp only [List.mem_cons] at he
      rcases he with rfl | he
      · obtain ⟨err, herr⟩ := (convertToServer_error_iff now e g).mpr hbad
        rw [herr] at hc
        cases hc
      · obtain ⟨err, herr⟩ := ih ⟨e, he, hbad⟩
        rw [herr]
        exact ⟨err, rfl⟩

theorem awsParseEntries_ok (now : GoTime) (g : AWSGlobalConfig)
    (entries : List AWSServerConfig) (h : ∀ e ∈ entries, ¬ awsMalformed e) :
    ∃ ss, awsParseEntries now g entries = .ok ss ∧
      List.Forall₂ (fun e s => convertToServer now e g = .ok s) entries ss := by
  induction entries with
  | nil => exact ⟨[], rfl, List.Forall₂.nil⟩
  | cons x rest ih =>
    have hx : ¬ awsMalformed x := h x (by simp)
    cases hc : convertToServer now x g with
    | error err => exact absurd ((convertToServer_error_iff now x g).mp ⟨err, hc⟩) hx
    | ok s =>
      obtain ⟨ss, hss, hfa⟩ := ih (fun e he => h e (by simp [he]))
      exact ⟨s :: ss, by simp only [awsParseEntries, hc, hss], List.Forall₂.cons hc hfa⟩

/-- **C4**: the cloud descriptor loader is all-or-nothing.  If any entry
is malformed (empty alias, empty profile, `instance_id` method with an
empty instance id, `ec2_tag_filter` method with an empty filter list, or
any other method value) the whole parse fails with an error and returns
no records; if no entry is malformed, exactly one record is returned per
entry, per `convertToServer`. -/
theorem awsParse_all_or_nothing (now : GoTime) (cfg : AWSYamlConfig) :
    ((∃ e ∈ cfg.awsServers, awsMalformed e) → ∃ err, awsParse now cfg = .error err) ∧
    ((∀ e ∈ cfg.awsServers, ¬ awsMalformed e) →
      ∃ ss, awsParse now cfg = .ok ss ∧
        List.Forall₂ (fun e s => convertToServer now e cfg.awsConfig = .ok s)
          cfg.awsServers ss) :=
  ⟨fun h => awsParseEntries_error now cfg.awsConfig cfg.awsServers h,
   fun h => awsParseEntries_ok now cfg.awsConfig cfg.awsServers h⟩

/-- A descriptor entry whose target selection carries the default (empty)
method value: malformed per `convertToServer`. -/
def awsEntryBad : AWSServerConfig :=
  { aliasName := ['a'], profile := ['p'] }

/-- A well-formed `instance_id` descriptor entry. -/
def awsEntryInst : AWSServerConfig :=
  { aliasName := ['a'], profile := ['p'],
    targetSelection := { method := "instance_id".data, instanceID := ['i'] } }

/-- A well-formed `ec2_tag_filter` descriptor entry. -/
def awsEntryTag : AWSServerConfig :=
  { aliasName := ['b'], profile := ['q'],
    targetSelection :=
      { method := "ec2_tag_filter".data,
        filters := [{ name := ['n'], values := [['v']] }] } }

/-- **C4 (witness)**: a document with one malformed entry (default method
value) fails entirely; a two-entry well-formed document yields exactly
two records, one per entry. -/
theorem awsParse_witness :
    (∃ err, awsParse {} { awsServers := [awsEntryBad] } = .error err) ∧
    (∃ ss, awsParse {} { awsServers := [awsEntryInst, awsEntryTag] } = .ok ss ∧
      List.Forall₂ (fun e s => convertToServer {} e ({} : AWSGlobalConfig) = .ok s)
        [awsEntryInst, awsEntryTag] ss) :=
  ⟨(awsParse_all_or_nothing {} { awsServers := [awsEntryBad] }).1
      ⟨awsEntryBad, by simp, by decide⟩,
   (awsParse_all_or_nothing {} { awsServers := [awsEntryInst, awsEntryTag] }).2
      (by decide)⟩

/-! ## A file-system model for the grouped config manager

`config_manager.go` and `server_repo.go` act on the outside world
through `os` calls.  Files are modelled as an association list from path
to byte content, and the process environment (the home directory of
`os.UserHomeDir`, the match lists of `filepath.Glob`) as explicit data.
`filepath.Clean` is not modelled: paths are joined verbatim with a
single separator, which agrees with the source whenever the inputs are
themselves clean. -/

/-- Environment data: home directory and glob results. -/
structure GoEnv where
  home : Option GoStr := none
  glob : GoStr → List GoStr := fun _ => []

/-- A file system: paths mapped to contents. -/
abbrev FS := List (GoStr × GoStr)

/-- `os.ReadFile` (also the existence check of `os.Stat`). -/
def fsRead : FS → GoStr → Option GoStr
  | [], _ => none
  | (q, w) :: rest, p => if q = p then some w else fsRead rest p

/-- Writing a file: overwrite in place, or create. -/
def fsWrite : FS → GoStr → GoStr → FS
  | [], p, v => [(p, v)]
  | (q, w) :: rest, p, v =>
    if q = p then (p, v) :: rest else (q, w) :: fsWrite rest p v

/-- `os.Remove`. -/
def fsRemove : FS → GoStr → FS
  | [], _ => []
  | (q, w) :: rest, p => if q = p then fsRemove rest p else (q, w) :: fsRemove rest p

/-- `filepath.Join` of two components (no cleaning). -/
def goJoin2 (a b : GoStr) : GoStr := a ++ "/".data ++ b

/-- `filepath.Dir` (no cleaning; `"."` when the path has no separator). -/
def goDirPath (p : GoStr) : GoStr :=
  if '/' ∈ p then ((p.reverse.dropWhile (fun c => decide (c ≠ '/'))).drop 1).reverse
  else ".".data

/-- `filepath.Base` (no cleaning). -/
def goBasePath (p : GoStr) : GoStr :=
  (p.reverse.takeWhile (fun c => decide (c ≠ '/'))).reverse

/-- An entry of `getConfigFiles`: a path with its group label. -/
structure ConfigFile where
  path : GoStr
  group : GoStr
deriving DecidableEq, Repr

/-- One line of the `Include` scan of `getConfigFiles`
(`src/unnamed/part_004` 697-733): a non-blank, non-comment `include`
line contributes one entry per glob match, labelled with the match's
basename. -/
def includeMatches (env : GoEnv) (configDir : GoStr) (line : GoStr) : List ConfigFile :=
  if goTrimSpace line = [] then []
  else if goHasPref "#".data (goTrimSpace line) then []
  else if (grpParseKeyValue (goTrimSpace line)).1 = "include".data then
    (env.glob (goJoin2 configDir (grpParseKeyValue (goTrimSpace line)).2)).map
      fun m => { path := m, group := goBasePath m }
  else []

/-- `SSHConfigParser.getConfigFiles`: the main file first (group `""`),
then the include matches; an absent main file contributes no matches. -/
def getConfigFiles (env : GoEnv) (fs : FS) (mainPath : GoStr) : List ConfigFile :=
  { path := mainPath, group := [] } ::
    (match fsRead fs mainPath with
     | none => []
     | some content =>
       (goScanLines content).flatMap (includeMatches env (goDirPath mainPath)))

/-- `parseFile` on one located file; an absent file yields empty lists. -/
def parseOneFile (env : GoEnv) (fs : FS) (f : ConfigFile) : List Server × List GoStr :=
  match fsRead fs f.path with
  | none => ([], [])
  | some content => grpParseFile env.home f.group content

/-- One iteration of the file loop of `SSHConfigParser.Parse`: servers
are appended, include lines recorded per path when nonempty. -/
def sshParseStep (env : GoEnv) (fs : FS)
    (acc : List Server × List (GoStr × List GoStr)) (f : ConfigFile) :
    List Server × List (GoStr × List GoStr) :=
  (acc.1 ++ (parseOneFile env fs f).1,
   if (parseOneFile env fs f).2 = [] then acc.2
   else acc.2 ++ [(f.path, (parseOneFile env fs f).2)])

/-- `SSHConfigParser.Parse` (`src/unnamed/part_004` 666-689): all
records, and the cached include directives keyed by file path. -/
def sshParse (env : GoEnv) (fs : FS) (mainPath : GoStr) :
    List Server × List (GoStr × List GoStr) :=
  (getConfigFiles env fs mainPath).foldl (sshParseStep env fs) ([], [])

/-- Modelled from the spec: the three-argument `SSHConfigWriter.Write`
called by `sshConfigManager.writeFile` is not among the sources; per the
writer section of the spec it serializes one block per record — the
managed-by marker, `Host`, then `HostName`, `User`, `Port` (omitted when
default) and one `IdentityFile` line per entry. -/
def grpServerBlock (s : Server) : GoStr :=
  unlines ([ManagedByComment, "Host ".data ++ s.aliasName]
    ++ (if s.host = [] then [] else ["    HostName ".data ++ s.host])
    ++ (if s.user = [] then [] else ["    User ".data ++ s.user])
    ++ (if s.port = DefaultPort then [] else ["    Port ".data ++ goIntToStr s.port])
    ++ s.identityFiles.map (fun f => "    IdentityFile ".data ++ f))

/-- Modelled from the spec: full serialized file content — the captured
include lines first (unmodified), then the record blocks separated by
blank lines. -/
def writeWithDirectives (servers : List Server) (directives : List GoStr) : GoStr :=
  unlines directives ++ joinBlocks (servers.map grpServerBlock)

/-- `sshConfigManager.backupCurrentConfig` (`config_manager.go`
288-332): a single fixed backup file
`<home>/.lazyssh/backups/config.backup`, overwritten on every call and
skipped when the primary file is absent. -/
def backupCurrentConfig (env : GoEnv) (mainPath : GoStr) (fs : FS) :
    Except GoStr FS :=
  match fsRead fs mainPath with
  | none => .ok fs
  | some content =>
    match env.home with
    | none => .error "home directory unavailable".data
    | some h =>
      .ok (fsWrite fs
        (goJoin2 (goJoin2 (goJoin2 h ".lazyssh".data) "backups".data) "config.backup".data)
        content)

/-- Net effect of `sshConfigManager.writeFile`: the fixed backup (for
the primary file only), then the temp-file write-sync-rename, which
amounts to writing the serialized content at `path`. -/
def writeFileOp (env : GoEnv) (mainPath : GoStr) (fs : FS) (path : GoStr)
    (servers : List Server) (directives : List GoStr) : Except GoStr FS :=
  if path = mainPath then
    match backupCurrentConfig env mainPath fs with
    | .error e => .error e
    | .ok fs2 => .ok (fsWrite fs2 path (writeWithDirectives servers directives))
  else .ok (fsWrite fs path (writeWithDirectives servers directives))

/-- Target path of a group in `writeGroupedServers`: the primary path
for the empty group, else `<dir>/config.d/<group>`. -/
def groupPath (mainPath g : GoStr) : GoStr :=
  if g = [] then mainPath
  else goJoin2 (goJoin2 (goDirPath mainPath) "config.d".data) g

/-- The distinct groups of a server list.  The source iterates a Go map,
whose order is unspecified; this model fixes first-occurrence order. -/
def groupList (servers : List Server) : List GoStr :=
  servers.foldl (fun acc s => if s.group ∈ acc then acc else acc ++ [s.group]) []

/-- Lookup in the cached include map (`m.cachedIncludes`); a missing key
is the empty list. -/
def cachedFor : List (GoStr × List GoStr) → GoStr → List GoStr
  | [], _ => []
  | (q, v) :: rest, p => if q = p then v else cachedFor rest p

/-- The per-group write loop of `writeGroupedServers`; a write error is
wrapped and aborts the loop. -/
def writeGroups (env : GoEnv) (mainPath : GoStr) (cached : List (GoStr × List GoStr))
    (servers : List Server) : List GoStr → FS → Except GoStr FS
  | [], fs => .ok fs
  | g :: gs, fs =>
    match writeFileOp env mainPath fs (groupPath mainPath g)
        (servers.filter (fun s => decide (s.group = g)))
        (cachedFor cached (groupPath mainPath g)) with
    | .error e => .error ("failed to write group ".data ++ g ++ ": ".data ++ e)
    | .ok fs2 => writeGroups env mainPath cached servers gs fs2

/-- The obsolete-group-file deletion loop of `writeGroupedServers`. -/
def removeObsolete (groups : List GoStr) : List GoStr → FS → FS
  | [], fs => fs
  | f :: rest, fs =>
    if goBasePath f ∈ groups then removeObsolete groups rest fs
    else removeObsolete groups rest (fsRemove fs f)

/-- `sshConfigManager.writeGroupedServers` (`config_manager.go`
136-179); the pre-existing group files are the glob matches of
`<dir>/config.d/*`. -/
def writeGroupedServers (env : GoEnv) (mainPath : GoStr)
    (cached : List (GoStr × List GoStr)) (fs : FS) (servers : List Server) :
    Except GoStr FS :=
  match writeGroups env mainPath cached servers (groupList servers) fs with
  | .error e => .error e
  | .ok fs2 =>
    .ok (removeObsolete (groupList servers)
      (env.glob (goJoin2 (goJoin2 (goDirPath mainPath) "config.d".data) "*".data)) fs2)

/-- `sshConfigManager.addServer` (`config_manager.go` 225-240): parse,
reject a duplicate alias before any write, else regroup and write. -/
def cmAddServer (env : GoEnv) (mainPath : GoStr) (fs : FS) (server : Server) :
    Except GoStr FS :=
  if (sshParse env fs mainPath).1.any
      (fun srv => decide (srv.aliasName = server.aliasName)) then
    .error ("server with alias '".data ++ server.aliasName ++ "' already exists".data)
  else
    writeGroupedServers env mainPath (sshParse env fs mainPath).2 fs
      ((sshParse env fs mainPath).1 ++ [server])

/-- The found-flag replacement loop of `updateServer`. -/
def replaceFirst (a : GoStr) (newServer : Server) : List Server → Option (List Server)
  | [] => none
  | s :: rest =>
    if s.aliasName = a then some (newServer :: rest)
    else
      match replaceFirst a newServer rest with
      | none => none
      | some rest2 => some (s :: rest2)

/-- `sshConfigManager.updateServer` (`config_manager.go` 243-264). -/
def cmUpdateServer (env : GoEnv) (mainPath : GoStr) (fs : FS) (a : GoStr)
    (newServer : Server) : Except GoStr FS :=
  match replaceFirst a newServer (sshParse env fs mainPath).1 with
  | none => .error ("server with alias '".data ++ a ++ "' not found".data)
  | some servers => writeGroupedServers env mainPath (sshParse env fs mainPath).2 fs servers

/-- `sshConfigManager.deleteServer` (`config_manager.go` 266-286). -/
def cmDeleteServer (env : GoEnv) (mainPath : GoStr) (fs : FS) (a : GoStr) :
    Except GoStr FS :=
  if (sshParse env fs mainPath).1.any (fun srv => decide (srv.aliasName = a)) then
    writeGroupedServers env mainPath (sshParse env fs mainPath).2 fs
      ((sshParse env fs mainPath).1.filter (fun srv => decide (¬ srv.aliasName = a)))
  else .error ("server with alias '".data ++ a ++ "' not found".data)

/-- The repository state seen by `serverRepo`: structural files plus the
metadata store. -/
structure RepoState where
  fs : FS := []
  meta : MetaMap := []
deriving DecidableEq, Repr

/-- The field forcing of `serverRepo.AddServer` (`server_repo.go`
139-141). -/
def forceSSH (server : Server) : Server :=
  { server with connectionType := connectionTypeSSH, source := "ssh_config".data }

/-- `serverRepo.AddServer` (`server_repo.go` 138-148).  A failing step
returns its message and leaves the state unchanged. -/
def repoAddServer (env : GoEnv) (mainPath : GoStr) (st : RepoState)
    (server : Server) : Option GoStr × RepoState :=
  match cmAddServer env mainPath st.fs (forceSSH server) with
  | .error e => (some ("failed to add to SSH config: ".data ++ e), st)
  | .ok fs2 =>
    (none, { fs := fs2, meta := updateMetadataMap st.meta (forceSSH server) })

/-- `serverRepo.UpdateServer` (`server_repo.go` 125-136): AWS records
are rejected before any config access. -/
def repoUpdateServer (env : GoEnv) (mainPath : GoStr) (st : RepoState)
    (server newServer : Server) : Option GoStr × RepoState :=
  if server.connectionType = connectionTypeAWS then
    (some "cannot update AWS servers - they are managed through the AWS YAML configuration file".data,
     st)
  else
    match cmUpdateServer env mainPath st.fs server.aliasName newServer with
    | .error e => (some ("failed to update SSH config: ".data ++ e), st)
    | .ok fs2 => (none, { fs := fs2, meta := updateMetadataMap st.meta newServer })

/-- `serverRepo.DeleteServer` (`server_repo.go` 150-161): AWS records
are rejected before any config access. -/
def repoDeleteServer (env : GoEnv) (mainPath : GoStr) (st : RepoState)
    (server : Server) : Option GoStr × RepoState :=
  if server.connectionType = connectionTypeAWS then
    (some "cannot delete AWS servers - they are managed through the AWS YAML configuration file".data,
     st)
  else
    match cmDeleteServer env mainPath st.fs server.aliasName with
    | .error e => (some ("failed to delete from SSH config: ".data ++ e), st)
    | .ok fs2 => (none, { fs := fs2, meta := removeFromMetadataMap st.meta server.aliasName })

/-! ### C2: duplicate add -/

/-- **C2**: adding a record whose alias equals the alias of a record
already parsed from the structural set returns the already-exists error
(wrapped by the repository) and leaves the whole file system — primary
file, group files, backups — and the metadata store unchanged: no write,
backup or deletion is performed. -/
theorem duplicate_add_already_exists (env : GoEnv) (mainPath : GoStr)
    (st : RepoState) (server : Server)
    (h : ∃ srv ∈ (sshParse env st.fs mainPath).1, srv.aliasName = server.aliasName) :
    repoAddServer env mainPath st server =
      (some ("failed to add to SSH config: ".data ++
        ("server with alias '".data ++ server.aliasName ++ "' already exists".data)),
       st) := by
  obtain ⟨srv, hm, ha⟩ := h
  have hcond : (sshParse env st.fs mainPath).1.any
      (fun s => decide (s.aliasName = (forceSSH server).aliasName)) = true :=
    List.any_eq_true.mpr ⟨srv, hm, by simpa [forceSSH] using ha⟩
  unfold repoAddServer cmAddServer
  rw [if_pos hcond]
  rfl

/-- **C2 (witness)**: a concrete file system whose primary file already
holds `Host web`, and an add of a record with the same alias. -/
theorem duplicate_add_already_exists_witness :
    (∃ srv ∈ (sshParse { home := none, glob := fun _ => [] }
        [("cfg".data, "Host web\n    HostName 10.0.0.1\n".data)] "cfg".data).1,
      srv.aliasName = ({ aliasName := "web".data } : Server).aliasName) ∧
    repoAddServer { home := none, glob := fun _ => [] } "cfg".data
        { fs := [("cfg".data, "Host web\n    HostName 10.0.0.1\n".data)], meta := [] }
        { aliasName := "web".data } =
      (some ("failed to add to SSH config: ".data ++
        ("server with alias '".data ++ "web".data ++ "' already exists".data)),
       { fs := [("cfg".data, "Host web\n    HostName 10.0.0.1\n".data)], meta := [] }) :=
  ⟨by decide,
   duplicate_add_already_exists { home := none, glob := fun _ => [] } "cfg".data
     { fs := [("cfg".data, "Host web\n    HostName 10.0.0.1\n".data)], meta := [] }
     { aliasName := "web".data } (by decide)⟩

/-! ### C6: structural mutation of cloud records -/

/-- **C6**: for a record whose connection type is the cloud type, update
and delete each return the validation error immediately and leave the
repository state — structural config files and metadata store — exactly
unchanged; no parse or rewrite is attempted. -/
theorem aws_update_delete_validation (env : GoEnv) (mainPath : GoStr)
    (st : RepoState) (server newServer : Server)
    (h : server.connectionType = connectionTypeAWS) :
    repoUpdateServer env mainPath st server newServer =
      (some "cannot update AWS servers - they are managed through the AWS YAML configuration file".data,
       st) ∧
    repoDeleteServer env mainPath st server =
      (some "cannot delete AWS servers - they are managed through the AWS YAML configuration file".data,
       st) := by
  constructor
  · unfold repoUpdateServer
    rw [if_pos h]
  · unfold repoDeleteServer
    rw [if_pos h]

/-- **C6 (witness)**: a concrete cloud record over a nonempty state. -/
theorem aws_update_delete_validation_witness :
    repoUpdateServer { home := none, glob := fun _ => [] } "cfg".data
        { fs := [("cfg".data, "Host a\n".data)], meta := [] }
        { aliasName := "i".data, connectionType := connectionTypeAWS }
        { aliasName := "j".data } =
      (some "cannot update AWS servers - they are managed through the AWS YAML configuration file".data,
       { fs := [("cfg".data, "Host a\n".data)], meta := [] }) ∧
    repoDeleteServer { home := none, glob := fun _ => [] } "cfg".data
        { fs := [("cfg".data, "Host a\n".data)], meta := [] }
        { aliasName := "i".data, connectionType := connectionTypeAWS } =
      (some "cannot delete AWS servers - they are managed through the AWS YAML configuration file".data,
       { fs := [("cfg".data, "Host a\n".data)], meta := [] }) :=
  aws_update_delete_validation { home := none, glob := fun _ => [] } "cfg".data
    { fs := [("cfg".data, "Host a\n".data)], meta := [] }
    { aliasName := "i".data, connectionType := connectionTypeAWS }
    { aliasName := "j".data } rfl

/-! ### C9: add forces the ssh connection type and source -/

/-- **C9**: `AddServer` overwrites the caller-supplied connection type
and source before anything is persisted: the result of an add is
invariant under changing those two fields of the input to arbitrary
values, and the record actually handed to the structural writer and the
metadata store — `forceSSH server` — always carries the ssh connection
type and the `ssh_config` source.  No invocation of add can therefore
introduce a cloud record into the structural store. -/
theorem repo_add_forces_ssh (env : GoEnv) (mainPath : GoStr) (st : RepoState)
    (server : Server) (c src : GoStr) :
    repoAddServer env mainPath st { server with connectionType := c, source := src } =
      repoAddServer env mainPath st server ∧
    (forceSSH server).connectionType = connectionTypeSSH ∧
    (forceSSH server).source = "ssh_config".data :=
  ⟨rfl, rfl, rfl⟩

/-! ## `serverRepo.ListServers`

The collaborator loads of `ListServers` (`server_repo.go` 74-123) —
configuration load, SSH parse, AWS YAML parse, metadata load — perform
file and YAML I/O; their outcomes enter the model as explicit `Except`
inputs, and the function below is the control flow of `ListServers` over
those outcomes. -/

/-- The collaborator outcomes `ListServers` consumes: the
`EnableAWSSource` flag of the loaded configuration, and the results of
`sshConfigManager.parseServers`, `awsConfigManager.parseServers` and
`metadataManager.loadAll`. -/
structure ListIn where
  configRes : Except GoStr Bool := .ok true
  sshRes : Except GoStr (List Server) := .ok []
  awsRes : Except GoStr (List Server) := .ok []
  metaRes : Except GoStr MetaMap := .ok []

/-- A failed configuration load falls back to the default
configuration, whose `EnableAWSSource` is `true` (`DefaultConfig`). -/
def effEnableAWS (i : ListIn) : Bool :=
  match i.configRes with
  | .ok b => b
  | .error _ => true

/-- The AWS records reaching the merged list: present only when the
source is enabled and the load succeeded; a load failure is logged and
degrades to none. -/
def awsLoaded (i : ListIn) : List Server :=
  if effEnableAWS i then
    match i.awsRes with
    | .ok l => l
    | .error _ => []
  else []

/-- A failed metadata load degrades to the empty map. -/
def metaLoaded (i : ListIn) : MetaMap :=
  match i.metaRes with
  | .ok m => m
  | .error _ => []

/-- The per-ssh-server forcing loop of `ListServers` (lines 89-93). -/
def forceSSHFields (servers : List Server) : List Server :=
  servers.map fun s =>
    { s with connectionType := connectionTypeSSH, source := "ssh_config".data }

/-- The body of `serverRepo.mergeMetadata` for one record: `LastSeen`
is reset to the zero time first; when a metadata entry exists, tags and
count are overlaid and the stored timestamps are parsed, a missing or
unparsable `pinned_at` leaving the record's own value. -/
def mergeOne (meta : MetaMap) (server : Server) : Server :=
  match meta.lookup server.aliasName with
  | none => { server with lastSeen := {} }
  | some m =>
    { server with
        tags := m.tags,
        sshCount := m.sshCount,
        lastSeen :=
          if m.lastSeen = [] then {}
          else
            match goParseRFC3339 m.lastSeen with
            | some t => t
            | none => {},
        pinnedAt :=
          if m.pinnedAt = [] then server.pinnedAt
          else
            match goParseRFC3339 m.pinnedAt with
            | some t => t
            | none => server.pinnedAt }

/-- `serverRepo.mergeMetadata` (`server_repo.go` 212-235). -/
def mergeMetadata (servers : List Server) (meta : MetaMap) : List Server :=
  servers.map (mergeOne meta)

/-- `serverRepo.matchesQuery` (`server_repo.go` 250-263). -/
def matchesQuery (server : Server) (queryLower : GoStr) : Bool :=
  goContains (goToLower server.aliasName) queryLower ||
  goContains (goToLower server.host) queryLower ||
  goContains (goToLower server.user) queryLower ||
  server.tags.any (fun t => goContains (goToLower t) queryLower)

/-- `serverRepo.filterServers` (`server_repo.go` 236-248). -/
def filterServers (servers : List Server) (query : GoStr) : List Server :=
  servers.filter (fun s => matchesQuery s (goToLower query))

/-- The final query step of `ListServers`: filtering only for a
nonempty query. -/
def applyQuery (servers : List Server) (query : GoStr) : List Server :=
  if query = [] then servers else filterServers servers query

/-- `serverRepo.ListServers` (`server_repo.go` 74-123) over the
collaborator outcomes: an SSH parse failure is the only propagated
error. -/
def listServers (i : ListIn) (query : GoStr) : Except GoStr (List Server) :=
  match i.sshRes with
  | .error e => .error ("failed to parse SSH config: ".data ++ e)
  | .ok ss =>
    .ok (applyQuery (mergeMetadata (forceSSHFields ss ++ awsLoaded i) (metaLoaded i)) query)

theorem mergeOne_nil (server : Server) :
    mergeOne [] server = { server with lastSeen := {} } := rfl

/-- A cloud record carrying descriptor tags, as produced by the AWS
loader. -/
def awsTaggedInput : Server :=
  { aliasName := "web".data, connectionType := connectionTypeAWS,
    source := "aws_yaml".data, tags := ["prod".data] }

/-- **C7 (counterexample)**: with the cloud source enabled and the
metadata load failing, the listing succeeds but the returned cloud
record keeps its descriptor tags — the annotations are not empty. -/
theorem list_metadata_tags_cex :
    listServers
      { sshRes := .ok [], awsRes := .ok [awsTaggedInput],
        metaRes := .error "corrupt".data } [] =
      .ok [{ awsTaggedInput with lastSeen := {} }] ∧
    ({ awsTaggedInput with lastSeen := {} } : Server).tags ≠ [] :=
  ⟨rfl, by decide⟩

/-- **C7** (amended): whenever the structural parse succeeds, the
listing returns without error; a cloud-load failure degrades to exactly
the structural records; a metadata-load failure resets every record's
`lastSeen` to the zero time but otherwise returns each merged record
with the annotations its own source carried (in particular, cloud
records keep their descriptor tags). -/
theorem list_degradation (i : ListIn) (query : GoStr) (ss : List Server)
    (hssh : i.sshRes = .ok ss) :
    (∃ out, listServers i query = .ok out) ∧
    (∀ e, i.awsRes = .error e →
      listServers i query =
        .ok (applyQuery (mergeMetadata (forceSSHFields ss) (metaLoaded i)) query)) ∧
    (∀ e, i.metaRes = .error e →
      listServers i query =
        .ok (applyQuery ((forceSSHFields ss ++ awsLoaded i).map
          (fun s => { s with lastSeen := {} })) query)) := by
  refine ⟨?_, ?_, ?_⟩
  · exact ⟨applyQuery (mergeMetadata (forceSSHFields ss ++ awsLoaded i) (metaLoaded i)) query,
      by simp [listServers, hssh]⟩
  · intro e he
    simp [listServers, hssh, awsLoaded, he]
  · intro e he
    simp only [listServers, hssh, metaLoaded, he, mergeMetadata]
    rfl

/-- The collaborator outcomes of the degradation witness: one ssh
record, cloud load and metadata load both failing. -/
def listInW : ListIn :=
  { sshRes := .ok [{ aliasName := "a".data }], awsRes := .error "down".data,
    metaRes := .error "corrupt".data }

/-- **C7 (witness)**: the conclusions of the degradation theorem at the
concrete outcomes `listInW`. -/
theorem list_degradation_witness :
    listInW.sshRes = .ok [{ aliasName := "a".data }] ∧
    ((∃ out, listServers listInW [] = .ok out) ∧
     (∀ e, listInW.awsRes = .error e →
       listServers listInW [] =
         .ok (applyQuery (mergeMetadata (forceSSHFields [{ aliasName := "a".data }])
           (metaLoaded listInW)) [])) ∧
     (∀ e, listInW.metaRes = .error e →
       listServers listInW [] =
         .ok (applyQuery ((forceSSHFields [{ aliasName := "a".data }] ++
           awsLoaded listInW).map (fun s => { s with lastSeen := {} })) []))) :=
  ⟨rfl, list_degradation listInW [] [{ aliasName := "a".data }] rfl⟩

/-! ### C10: filtering is an order-preserving subsequence -/

/-- **C10**: the filtered listing is a sublist — order-preserving, no
duplication, no invention — of the unfiltered listing over the same
stored state. -/
theorem list_query_sublist (i : ListIn) (query : GoStr) (out outAll : List Server)
    (h1 : listServers i query = .ok out) (h2 : listServers i [] = .ok outAll) :
    out.Sublist outAll := by
  unfold listServers at h1 h2
  cases hs : i.sshRes with
  | error e => rw [hs] at h1; cases h1
  | ok ss =>
    rw [hs] at h1 h2
    have e1 := Except.ok.inj h1
    have e2 := Except.ok.inj h2
    rw [← e1, ← e2]
    unfold applyQuery
    rw [if_pos rfl]
    by_cases hq : query = []
    · rw [if_pos hq]
    · rw [if_neg hq]
      unfold filterServers
      exact List.filter_sublist _

/-- The forced form of the `alpha` record after listing. -/
def srvAlphaOut : Server :=
  { aliasName := "alpha".data, connectionType := connectionTypeSSH,
    source := "ssh_config".data }

/-- The forced form of the `beta` record after listing. -/
def srvBetaOut : Server :=
  { aliasName := "beta".data, connectionType := connectionTypeSSH,
    source := "ssh_config".data }

/-- **C10 (witness)**: two ssh records, query `al` keeping one of them:
the filtered result is a sublist of the unfiltered one. -/
theorem list_query_sublist_witness :
    (listServers { sshRes := .ok [{ aliasName := "alpha".data }, { aliasName := "beta".data }] }
        "al".data = .ok [srvAlphaOut]) ∧
    (listServers { sshRes := .ok [{ aliasName := "alpha".data }, { aliasName := "beta".data }] }
        [] = .ok [srvAlphaOut, srvBetaOut]) ∧
    List.Sublist [srvAlphaOut] [srvAlphaOut, srvBetaOut] :=
  ⟨rfl, rfl,
   list_query_sublist
     { sshRes := .ok [{ aliasName := "alpha".data }, { aliasName := "beta".data }] }
     "al".data _ _ rfl rfl⟩

/-! ## The `ssh_config_file` repository's timestamped backups

`saveConfig` and `createBackup` (`ssh_config_file/parser.go`) operate on
the directory of the config file.  The directory is modelled as a list
of files with name, modification time (unix milliseconds) and content;
the config path is taken to live flat in this directory, so entry names
are paths. -/

/-- A directory entry. -/
structure BakFile where
  name : GoStr
  mtime : Nat
  content : GoStr
deriving DecidableEq, Repr

/-- A directory. -/
abbrev BakDir := List BakFile

/-- Lookup by name (`Stat`/`Open`). -/
def dirLookup : BakDir → GoStr → Option BakFile
  | [], _ => none
  | f :: rest, n => if f.name = n then some f else dirLookup rest n

/-- Create or overwrite a file, stamping the write time. -/
def dirWrite : BakDir → GoStr → Nat → GoStr → BakDir
  | [], n, t, c => [⟨n, t, c⟩]
  | f :: rest, n, t, c =>
    if f.name = n then ⟨n, t, c⟩ :: rest else f :: dirWrite rest n t c

/-- `Remove` by name. -/
def dirRemove : BakDir → GoStr → BakDir
  | [], _ => []
  | f :: rest, n => if f.name = n then dirRemove rest n else f :: dirRemove rest n

/-- The `BackupSuffix` constant. -/
def BackupSuffix : GoStr := "lazyssh.backup".data

/-- The `MaxBackups` constant. -/
def MaxBackups : Nat := 10

/-- The backup path `fmt.Sprintf("%s-%d-%s", configPath, timestamp,
BackupSuffix)`. -/
def backupName (configPath : GoStr) (now : Nat) : GoStr :=
  configPath ++ "-".data ++ natDigits now ++ "-".data ++ BackupSuffix

/-- The suffix test of `findBackupFiles`. -/
def isBackupFile (f : BakFile) : Bool := goHasSuff BackupSuffix f.name

/-- Newest-first comparison; the source sorts with `ModTime().After`
(strict descending), which produces the same list whenever the
modification times are pairwise distinct. -/
def byMtimeDesc (a b : BakFile) : Prop := b.mtime ≤ a.mtime

instance : DecidableRel byMtimeDesc := fun a b => Nat.decLe b.mtime a.mtime

instance : IsTotal BakFile byMtimeDesc :=
  ⟨fun a b => Nat.le_total b.mtime a.mtime⟩

instance : IsTrans BakFile byMtimeDesc :=
  ⟨fun _ _ _ h1 h2 => Nat.le_trans h2 h1⟩

/-- The `sort.Slice` call of `createBackup`, newest first. -/
def sortBackups (l : BakDir) : BakDir := List.insertionSort byMtimeDesc l

/-- The pruning loop of `createBackup`: every backup file beyond the
newest `MaxBackups` is removed (when at most `MaxBackups` exist the
dropped list is empty and nothing happens, as in the source's early
return). -/
def pruneBackups (d : BakDir) : BakDir :=
  ((sortBackups (d.filter isBackupFile)).drop MaxBackups).foldl
    (fun acc g => dirRemove acc g.name) d

/-- `createBackup` (`ssh_config_file/parser.go` 138-179): skip when the
config file is absent; copy it to the timestamped backup name; prune. -/
def createBackup (configPath : GoStr) (now : Nat) (d : BakDir) : BakDir :=
  match dirLookup d configPath with
  | none => d
  | some f => pruneBackups (dirWrite d (backupName configPath now) now f.content)

/-- Net effect of `saveConfig` (`ssh_config_file/parser.go` 64-93):
write the new content to a temp file, create the backup, then rename
the temp file over the config path (the transient temp file, whose name
carries the `.tmp` suffix, is not modelled). -/
def saveConfig (configPath : GoStr) (now : Nat) (newContent : GoStr)
    (d : BakDir) : BakDir :=
  dirWrite (createBackup configPath now d) configPath now newContent

theorem dirWrite_fresh : ∀ {l : BakDir} {n : GoStr}, n ∉ l.map BakFile.name →
    ∀ (t : Nat) (c : GoStr), dirWrite l n t c = l ++ [⟨n, t, c⟩]
  | [], _, _, _, _ => rfl
  | f :: rest, n, h, t, c => by
    simp only [List.map_cons, List.mem_cons, not_or] at h
    unfold dirWrite
    rw [if_neg (fun e => h.1 e.symm), dirWrite_fresh h.2 t c]
    rfl

theorem dirRemove_eq_filter : ∀ (l : BakDir) (n : GoStr),
    dirRemove l n = l.filter (fun f => decide (f.name ≠ n))
  | [], _ => rfl
  | f :: rest, n => by
    unfold dirRemove
    rw [List.filter_cons, dirRemove_eq_filter rest n]
    by_cases h : f.name = n
    · rw [if_pos h]
      simp [h]
    · rw [if_neg h]
      simp [h]

theorem foldl_dirRemove_eq_filter : ∀ (rs : List BakFile) (d : BakDir),
    rs.foldl (fun acc g => dirRemove acc g.name) d =
      d.filter (fun f => decide (f.name ∉ rs.map BakFile.name))
  | [], d => by simp
  | g :: rs, d => by
    rw [List.foldl_cons, foldl_dirRemove_eq_filter rs (dirRemove d g.name),
      dirRemove_eq_filter, List.filter_filter]
    refine List.filter_congr fun f _ => ?_
    by_cases h1 : f.name = g.name
    · simp [h1]
    · by_cases h2 : f.name ∈ rs.map BakFile.name <;> simp [h1, h2]

theorem dirLookup_dirWrite_self : ∀ (l : BakDir) (p : GoStr) (t : Nat) (c : GoStr),
    dirLookup (dirWrite l p t c) p = some ⟨p, t, c⟩
  | [], p, t, c => by simp [dirWrite, dirLookup]
  | f :: rest, p, t, c => by
    unfold dirWrite
    by_cases h : f.name = p
    · rw [if_pos h]
      simp [dirLookup]
    · rw [if_neg h]
      unfold dirLookup
      rw [if_neg h]
      exact dirLookup_dirWrite_self rest p t c

theorem dirLookup_dirWrite_other : ∀ (l : BakDir) {p n : GoStr}, n ≠ p →
    ∀ (t : Nat) (c : GoStr), dirLookup (dirWrite l p t c) n = dirLookup l n
  | [], p, n, h, t, c => by
    simp [dirWrite, dirLookup, Ne.symm h]
  | f :: rest, p, n, h, t, c => by
    have hpn : ¬ ((⟨p, t, c⟩ : BakFile).name = n) := fun e => h (Eq.symm e)
    unfold dirWrite
    by_cases hf : f.name = p
    · have hfn : ¬ (f.name = n) := fun e => h ((hf.symm.trans e).symm)
      rw [if_pos hf]
      unfold dirLookup
      rw [if_neg hpn, if_neg hfn]
    · rw [if_neg hf]
      unfold dirLookup
      by_cases hn : f.name = n
      · rw [if_pos hn, if_pos hn]
      · rw [if_neg hn, if_neg hn]
        exact dirLookup_dirWrite_other rest h t c

theorem dirLookup_of_nodup : ∀ {l : BakDir}, (l.map BakFile.name).Nodup →
    ∀ {f : BakFile}, f ∈ l → dirLookup l f.name = some f
  | [], _, f, hf => absurd hf (List.not_mem_nil f)
  | g :: rest, hn, f, hf => by
    simp only [List.map_cons, List.nodup_cons] at hn
    unfold dirLookup
    rcases List.mem_cons.mp hf with rfl | hf2
    · rw [if_pos rfl]
    · by_cases h : g.name = f.name
      · exact absurd (h ▸ List.mem_map_of_mem BakFile.name hf2) hn.1
      · rw [if_neg h]
        exact dirLookup_of_nodup hn.2 hf2

theorem goHasSuff_self (s x : GoStr) : goHasSuff s (x ++ s) = true := by
  unfold goHasSuff
  rw [List.reverse_append]
  rw [List.isPrefixOf_iff_prefix]
  exact List.prefix_append _ _

theorem goHasSuff_backupName (p : GoStr) (t : Nat) :
    goHasSuff BackupSuffix (backupName p t) = true := by
  unfold backupName
  rw [show p ++ "-".data ++ natDigits t ++ "-".data ++ BackupSuffix =
    (p ++ "-".data ++ natDigits t ++ "-".data) ++ BackupSuffix by simp]
  exact goHasSuff_self _ _

theorem filter_dirWrite_nonbackup : ∀ (l : BakDir) {p : GoStr},
    goHasSuff BackupSuffix p = false → ∀ (t : Nat) (c : GoStr),
    (dirWrite l p t c).filter isBackupFile = l.filter isBackupFile
  | [], p, hp, t, c => by
    simp [dirWrite, List.filter, isBackupFile, hp]
  | f :: rest, p, hp, t, c => by
    unfold dirWrite
    by_cases h : f.name = p
    · rw [if_pos h, List.filter_cons, List.filter_cons]
      have h1 : isBackupFile ⟨p, t, c⟩ = false := hp
      have h2 : isBackupFile f = false := by
        unfold isBackupFile
        rw [h]
        exact hp
      rw [h1, h2]
      simp
    · rw [if_neg h, List.filter_cons, List.filter_cons,
        filter_dirWrite_nonbackup rest hp t c]

theorem pruneBackups_eq (D : BakDir) :
    pruneBackups D = D.filter (fun g =>
      decide (g.name ∉
        ((sortBackups (D.filter isBackupFile)).drop MaxBackups).map BakFile.name)) := by
  unfold pruneBackups
  exact foldl_dirRemove_eq_filter _ _

theorem take_name_not_in_drop {S : BakDir} (h : (S.map BakFile.name).Nodup)
    (k : Nat) : ∀ x ∈ S.take k, x.name ∉ (S.drop k).map BakFile.name := by
  intro x hx hmem
  obtain ⟨y, hy, he⟩ := List.mem_map.mp hmem
  have hxS : x ∈ S := List.mem_of_mem_take hx
  have hyS : y ∈ S := List.mem_of_mem_drop hy
  have hxy : y = x := List.inj_on_of_nodup_map h hyS hxS he
  subst hxy
  have hnd : S.Nodup := h.of_map
  rw [← List.take_append_drop k S] at hnd
  exact (List.nodup_append.mp hnd).2.2 hx hy

theorem filter_of_take_drop {S : BakDir} (k : Nat) (P : BakFile → Bool)
    (h1 : ∀ x ∈ S.take k, P x = true) (h2 : ∀ y ∈ S.drop k, P y = false) :
    S.filter P = S.take k := by
  conv_lhs => rw [← List.take_append_drop k S]
  rw [List.filter_append, List.filter_eq_self.mpr h1,
    List.filter_eq_nil_iff.mpr (fun y hy => by simp [h2 y hy]), List.append_nil]

theorem filter_take_drop_names {S : BakDir} (h : (S.map BakFile.name).Nodup)
    (k : Nat) :
    S.filter (fun g => decide (g.name ∉ (S.drop k).map BakFile.name)) = S.take k := by
  refine filter_of_take_drop k _ (fun x hx => ?_) (fun y hy => ?_)
  · exact decide_eq_true (take_name_not_in_drop h k x hx)
  · exact decide_eq_false (not_not_intro (List.mem_map_of_mem BakFile.name hy))

theorem mem_of_name_mem {S : BakDir} (h : (S.map BakFile.name).Nodup)
    {g : BakFile} (hg : g ∈ S) {part : BakDir} (hpart : ∀ y ∈ part, y ∈ S)
    (hname : g.name ∈ part.map BakFile.name) : g ∈ part := by
  obtain ⟨y, hy, he⟩ := List.mem_map.mp hname
  have : y = g := List.inj_on_of_nodup_map h (hpart y hy) hg he
  exact this ▸ hy

theorem pruneBackups_backups (D : BakDir) :
    (pruneBackups D).filter isBackupFile =
      (D.filter isBackupFile).filter (fun g =>
        decide (g.name ∉
          ((sortBackups (D.filter isBackupFile)).drop MaxBackups).map BakFile.name)) := by
  rw [pruneBackups_eq, List.filter_filter, List.filter_filter]
  exact List.filter_congr fun a _ => Bool.and_comm _ _

theorem sortBackups_nodup_names {D : BakDir} (hD : (D.map BakFile.name).Nodup) :
    ((sortBackups (D.filter isBackupFile)).map BakFile.name).Nodup := by
  have hBnodup : ((D.filter isBackupFile).map BakFile.name).Nodup :=
    List.Nodup.sublist (List.Sublist.map BakFile.name (List.filter_sublist D)) hD
  exact ((List.perm_insertionSort byMtimeDesc
    (D.filter isBackupFile)).map BakFile.name).nodup_iff.mpr hBnodup

theorem pruneBackups_backups_perm (D : BakDir) (hD : (D.map BakFile.name).Nodup) :
    ((pruneBackups D).filter isBackupFile).Perm
      ((sortBackups (D.filter isBackupFile)).take MaxBackups) := by
  rw [pruneBackups_backups]
  have hS : (sortBackups (D.filter isBackupFile)).Perm (D.filter isBackupFile) :=
    List.perm_insertionSort _ _
  have heq := filter_take_drop_names (sortBackups_nodup_names hD) MaxBackups
  exact heq ▸ (hS.filter _).symm

theorem mem_pruneBackups_backups {D : BakDir} (hD : (D.map BakFile.name).Nodup)
    {g : BakFile} :
    g ∈ (pruneBackups D).filter isBackupFile ↔
      g ∈ (sortBackups (D.filter isBackupFile)).take MaxBackups :=
  (pruneBackups_backups_perm D hD).mem_iff

theorem pruneBackups_length (D : BakDir) (hD : (D.map BakFile.name).Nodup) :
    ((pruneBackups D).filter isBackupFile).length =
      min MaxBackups (D.filter isBackupFile).length := by
  rw [(pruneBackups_backups_perm D hD).length_eq, List.length_take]
  congr 1
  exact (List.perm_insertionSort byMtimeDesc _).length_eq

theorem pruneBackups_oldest (D : BakDir) (hD : (D.map BakFile.name).Nodup)
    (hdist : (D.filter isBackupFile).Pairwise (fun a b => a.mtime ≠ b.mtime)) :
    ∀ g ∈ D.filter isBackupFile, g ∉ (pruneBackups D).filter isBackupFile →
    ∀ h2 ∈ (pruneBackups D).filter isBackupFile, g.mtime < h2.mtime := by
  intro g hg hgout h2 hh2
  have hS : (sortBackups (D.filter isBackupFile)).Perm (D.filter isBackupFile) :=
    List.perm_insertionSort _ _
  have hsort : List.Sorted byMtimeDesc (sortBackups (D.filter isBackupFile)) :=
    List.sorted_insertionSort _ _
  have hh2take : h2 ∈ (sortBackups (D.filter isBackupFile)).take MaxBackups :=
    (mem_pruneBackups_backups hD).mp hh2
  have hgS : g ∈ sortBackups (D.filter isBackupFile) := hS.mem_iff.mpr hg
  have hgdrop : g ∈ (sortBackups (D.filter isBackupFile)).drop MaxBackups := by
    rcases List.mem_append.mp
        ((List.take_append_drop MaxBackups
          (sortBackups (D.filter isBackupFile))).symm ▸ hgS) with htk | hdr
    · exact absurd ((mem_pruneBackups_backups hD).mpr htk) hgout
    · exact hdr
  have hle : g.mtime ≤ h2.mtime :=
    hsort.rel_of_mem_take_of_mem_drop hh2take hgdrop
  have hSnodup : (sortBackups (D.filter isBackupFile)).Nodup :=
    (sortBackups_nodup_names hD).of_map
  have hdisj := (List.nodup_append.mp
    ((List.take_append_drop MaxBackups
      (sortBackups (D.filter isBackupFile))).symm ▸ hSnodup)).2.2
  have hne : g ≠ h2 := fun e => hdisj hh2take (e ▸ hgdrop)
  have hh2B : h2 ∈ D.filter isBackupFile :=
    hS.mem_iff.mp (List.mem_of_mem_take hh2take)
  have hmne : g.mtime ≠ h2.mtime :=
    hdist.forall (fun _ _ e => Ne.symm e) hg hh2B hne
  exact Nat.lt_of_le_of_ne hle hmne

theorem pruneBackups_keeps_newest (D : BakDir) (hD : (D.map BakFile.name).Nodup)
    {nb : BakFile} (hnb : nb ∈ D) (hb : isBackupFile nb = true)
    (hmax : ∀ g ∈ D.filter isBackupFile, g ≠ nb → g.mtime < nb.mtime) :
    nb ∈ (pruneBackups D).filter isBackupFile := by
  rw [mem_pruneBackups_backups hD]
  have hnbB : nb ∈ D.filter isBackupFile := List.mem_filter.mpr ⟨hnb, hb⟩
  have hS : (sortBackups (D.filter isBackupFile)).Perm (D.filter isBackupFile) :=
    List.perm_insertionSort _ _
  have hsort : List.Sorted byMtimeDesc (sortBackups (D.filter isBackupFile)) :=
    List.sorted_insertionSort _ _
  have hnbS : nb ∈ sortBackups (D.filter isBackupFile) := hS.mem_iff.mpr hnbB
  rcases List.mem_append.mp
      ((List.take_append_drop MaxBackups
        (sortBackups (D.filter isBackupFile))).symm ▸ hnbS) with htk | hdr
  · exact htk
  · exfalso
    have hlen : MaxBackups < (sortBackups (D.filter isBackupFile)).length := by
      by_contra hc
      push_neg at hc
      rw [List.drop_eq_nil_of_le hc] at hdr
      exact List.not_mem_nil nb hdr
    have htklen : 0 < ((sortBackups (D.filter isBackupFile)).take MaxBackups).length := by
      rw [List.length_take]
      exact lt_min (by decide) (Nat.lt_of_le_of_lt (Nat.le_of_lt (by decide)) hlen)
    obtain ⟨x, hx⟩ := List.exists_mem_of_length_pos htklen
    have hrel : byMtimeDesc x nb := hsort.rel_of_mem_take_of_mem_drop hx hdr
    have hSnodup : (sortBackups (D.filter isBackupFile)).Nodup :=
      (sortBackups_nodup_names hD).of_map
    have hdisj := (List.nodup_append.mp
      ((List.take_append_drop MaxBackups
        (sortBackups (D.filter isBackupFile))).symm ▸ hSnodup)).2.2
    have hxne : x ≠ nb := fun e => hdisj hx (e ▸ hdr)
    have hxB : x ∈ D.filter isBackupFile := hS.mem_iff.mp (List.mem_of_mem_take hx)
    exact Nat.not_le.mpr (hmax x hxB hxne) hrel

theorem saveConfig_eq (configPath : GoStr) (now : Nat) (c : GoStr) (d : BakDir)
    {f : BakFile} (hcfg : dirLookup d configPath = some f)
    (hfresh : backupName configPath now ∉ d.map BakFile.name) :
    saveConfig configPath now c d =
      dirWrite (pruneBackups (d ++ [(⟨backupName configPath now, now, f.content⟩ : BakFile)])) configPath now c := by
  unfold saveConfig createBackup
  simp only [hcfg]
  rw [dirWrite_fresh hfresh now f.content]

/-- **C3** (amended, the `ssh_config_file` repository's scheme): a
rewrite at time `now` of an existing config file first copies its old
bytes to a new backup named `<configPath>-<now>-<BackupSuffix>`; after
the rewrite the config holds the new content, the number of backup
files is capped — `min (previous + 1) MaxBackups` — and every backup
file that was pruned is older (by modification time) than every backup
file that remains.  Hypotheses: entry names are distinct, the config
path does not itself carry the backup suffix, all existing files are
older than `now`, existing backups have pairwise-distinct modification
times, and the new backup name is fresh. -/
theorem saveConfig_backup_rotation (configPath : GoStr) (now : Nat)
    (c : GoStr) (d : BakDir) (f : BakFile)
    (hnames : (d.map BakFile.name).Nodup)
    (hcfg : dirLookup d configPath = some f)
    (hcfgnb : goHasSuff BackupSuffix configPath = false)
    (htimes : ∀ g ∈ d, g.mtime < now)
    (hdist : (d.filter isBackupFile).Pairwise (fun a b => a.mtime ≠ b.mtime))
    (hfresh : backupName configPath now ∉ d.map BakFile.name) :
    dirLookup (saveConfig configPath now c d) (backupName configPath now) =
      some ⟨backupName configPath now, now, f.content⟩ ∧
    dirLookup (saveConfig configPath now c d) configPath =
      some ⟨configPath, now, c⟩ ∧
    ((saveConfig configPath now c d).filter isBackupFile).length =
      min ((d.filter isBackupFile).length + 1) MaxBackups ∧
    (∀ g ∈ d.filter isBackupFile,
      g ∉ (saveConfig configPath now c d).filter isBackupFile →
      ∀ h2 ∈ (saveConfig configPath now c d).filter isBackupFile,
        g.mtime < h2.mtime) := by
  have hbnp : backupName configPath now ≠ configPath := by
    intro e
    have h1 := goHasSuff_backupName configPath now
    rw [e, hcfgnb] at h1
    cases h1
  have hsave := saveConfig_eq configPath now c d hcfg hfresh
  have hnames2 : ((d ++ [(⟨backupName configPath now, now, f.content⟩ : BakFile)]).map BakFile.name).Nodup := by
    rw [List.map_append, List.nodup_append]
    refine ⟨hnames, List.nodup_singleton _, ?_⟩
    intro a ha hb
    rw [show ([(⟨backupName configPath now, now, f.content⟩ : BakFile)].map BakFile.name) = [backupName configPath now] from rfl,
      List.mem_singleton] at hb
    exact hfresh (hb ▸ ha)
  have hB2 : (d ++ [(⟨backupName configPath now, now, f.content⟩ : BakFile)]).filter isBackupFile =
      d.filter isBackupFile ++ [(⟨backupName configPath now, now, f.content⟩ : BakFile)] := by
    rw [List.filter_append]
    congr 1
    simp [List.filter_cons, isBackupFile, goHasSuff_backupName]
  have hdistB2 : ((d ++ [(⟨backupName configPath now, now, f.content⟩ : BakFile)]).filter isBackupFile).Pairwise (fun a b => a.mtime ≠ b.mtime) := by
    rw [hB2, List.pairwise_append]
    refine ⟨hdist, List.pairwise_singleton _ _, ?_⟩
    intro a ha b hb
    rw [List.mem_singleton] at hb
    subst hb
    exact Nat.ne_of_lt (htimes a (List.mem_filter.mp ha).1)
  have hmax : ∀ g ∈ (d ++ [(⟨backupName configPath now, now, f.content⟩ : BakFile)]).filter isBackupFile, g ≠ (⟨backupName configPath now, now, f.content⟩ : BakFile) → g.mtime < now := by
    intro g hg hne
    rw [hB2] at hg
    rcases List.mem_append.mp hg with h1 | h1
    · exact htimes g (List.mem_filter.mp h1).1
    · rw [List.mem_singleton] at h1
      exact absurd h1 hne
  have hkeep : (⟨backupName configPath now, now, f.content⟩ : BakFile) ∈ (pruneBackups (d ++ [(⟨backupName configPath now, now, f.content⟩ : BakFile)])).filter isBackupFile :=
    pruneBackups_keeps_newest (d ++ [(⟨backupName configPath now, now, f.content⟩ : BakFile)]) hnames2
      (List.mem_append_right _ (List.mem_singleton_self _))
      (goHasSuff_backupName configPath now) hmax
  refine ⟨?_, ?_, ?_, ?_⟩
  · rw [hsave, dirLookup_dirWrite_other _ hbnp]
    have hPnodup : ((pruneBackups (d ++ [(⟨backupName configPath now, now, f.content⟩ : BakFile)])).map BakFile.name).Nodup := by
      rw [pruneBackups_eq]
      exact List.Nodup.sublist (List.Sublist.map _ (List.filter_sublist _)) hnames2
    exact dirLookup_of_nodup hPnodup ((List.mem_filter.mp hkeep).1)
  · rw [hsave]
    exact dirLookup_dirWrite_self _ _ _ _
  · rw [hsave, filter_dirWrite_nonbackup _ hcfgnb, pruneBackups_length _ hnames2,
      hB2, List.length_append]
    exact Nat.min_comm _ _
  · intro g hg hgout h2 hh2
    rw [hsave, filter_dirWrite_nonbackup _ hcfgnb] at hgout hh2
    refine pruneBackups_oldest (d ++ [(⟨backupName configPath now, now, f.content⟩ : BakFile)]) hnames2 hdistB2 g ?_ hgout h2 hh2
    rw [hB2]
    exact List.mem_append_left _ hg

/-- **C3 (counterexample)**: in the grouped config manager
(`config_manager.go`), a rewrite of the primary file does not create
any timestamped sibling carrying the backup suffix; `backupCurrentConfig`
overwrites the single fixed file `<home>/.lazyssh/backups/config.backup`
with the old primary bytes, and no pruning by modification time exists. -/
theorem cm_backup_single_file_cex :
    writeFileOp { home := some "/h".data, glob := fun _ => [] } "cfg".data
        [("cfg".data, "Host old\n".data)] "cfg".data [] [] =
      .ok [("cfg".data, []),
           ("/h/.lazyssh/backups/config.backup".data, "Host old\n".data)] ∧
    ([("cfg".data, ([] : GoStr)),
      ("/h/.lazyssh/backups/config.backup".data, "Host old\n".data)] : FS).all
      (fun e => !(goHasSuff BackupSuffix e.1)) = true :=
  ⟨rfl, by decide⟩

/-- A directory with a config file and ten timestamped backups of it. -/
def bakDirW : BakDir :=
  ⟨"c".data, 0, "old".data⟩ ::
    (List.range 10).map (fun k => ⟨backupName "c".data (k + 1), k + 1, "b".data⟩)

/-- **C3 (witness)**: rewriting a config that already has ten backups
at time 11 creates the new backup with the old bytes, rewrites the
config, keeps the count at the cap, and prunes only older backups. -/
theorem saveConfig_backup_rotation_witness :
    ((bakDirW.map BakFile.name).Nodup ∧
     dirLookup bakDirW "c".data = some ⟨"c".data, 0, "old".data⟩ ∧
     goHasSuff BackupSuffix "c".data = false ∧
     (∀ g ∈ bakDirW, g.mtime < 11) ∧
     (bakDirW.filter isBackupFile).Pairwise (fun a b => a.mtime ≠ b.mtime) ∧
     backupName "c".data 11 ∉ bakDirW.map BakFile.name) ∧
    (dirLookup (saveConfig "c".data 11 "new".data bakDirW) (backupName "c".data 11) =
       some ⟨backupName "c".data 11, 11, "old".data⟩ ∧
     dirLookup (saveConfig "c".data 11 "new".data bakDirW) "c".data =
       some ⟨"c".data, 11, "new".data⟩ ∧
     ((saveConfig "c".data 11 "new".data bakDirW).filter isBackupFile).length =
       min ((bakDirW.filter isBackupFile).length + 1) MaxBackups ∧
     (∀ g ∈ bakDirW.filter isBackupFile,
       g ∉ (saveConfig "c".data 11 "new".data bakDirW).filter isBackupFile →
       ∀ h2 ∈ (saveConfig "c".data 11 "new".data bakDirW).filter isBackupFile,
         g.mtime < h2.mtime)) :=
  ⟨⟨by decide, by decide, by decide, by decide, by decide, by decide⟩,
   saveConfig_backup_rotation "c".data 11 "new".data bakDirW ⟨"c".data, 0, "old".data⟩
     (by decide) (by decide) (by decide) (by decide) (by decide) (by decide)⟩

end LazySSH
